import Mathlib

/-!
Verification development for the UK sanctions list ETL pipeline
(text segmentation, record normalization, incremental persistence).

Python strings are modelled as `List Char` (sequences of code points);
Python dictionaries as ordered association lists `List (String × Value)`
(Python dicts preserve insertion order and have unique keys); JSON-like
loosely-typed values as the inductive type `Value`.  Fallible code
(operations that can raise) returns `Option`.  Character-class helpers
model the ASCII behaviour of Python's `str.strip`, `str.lower` and the
regex classes `\s`, `\d`; every input exercised by the claims is ASCII.
-/

namespace Sanctions

/-- Python string model: a list of code points. -/
abbrev PyStr := List Char

/-- Code points of a Lean string literal. -/
def listChar (s : String) : PyStr := s.data

/-- Models Python whitespace (`str.strip`, regex `\s`) on ASCII input. -/
def pyIsSpace (c : Char) : Bool := c.isWhitespace

/-- Models Python `str.lower` on ASCII input. -/
def pyToLower (c : Char) : Char := c.toLower

/-- Models Python `s.strip()`: remove leading and trailing whitespace. -/
def pyStrip (s : PyStr) : PyStr :=
  ((s.dropWhile pyIsSpace).reverse.dropWhile pyIsSpace).reverse

/-- Models Python `s.rstrip(cs)`: remove trailing characters drawn from `cs`. -/
def pyRstrip (s : PyStr) (cs : PyStr) : PyStr :=
  (s.reverse.dropWhile (fun c => cs.contains c)).reverse

/-- Models Python `s.split(sep)` for a single-character separator. -/
def splitOnChar (s : PyStr) (sep : Char) : List PyStr :=
  match s with
  | [] => [[]]
  | c :: rest =>
    let r := splitOnChar rest sep
    if c = sep then [] :: r
    else
      match r with
      | h :: t => (c :: h) :: t
      | [] => [[c]]

/-- Models Python `int(s)` on a string of decimal digits. -/
def natOfDigits (cs : PyStr) : Nat :=
  cs.foldl (fun a c => a * 10 + (c.toNat - 48)) 0

/-- JSON-like loosely-typed value, as produced by `json.load`. -/
inductive Value where
  | vnull : Value
  | vbool : Bool → Value
  | vnum : Int → Value
  | vstr : PyStr → Value
  | vlist : List Value → Value
  | vdict : List (String × Value) → Value

/-- Python truthiness (`bool(v)`) for the modelled values. -/
def pyFalsy : Value → Bool
  | .vnull => true
  | .vbool b => !b
  | .vnum n => n == 0
  | .vstr s => s.isEmpty
  | .vlist xs => xs.isEmpty
  | .vdict ps => ps.isEmpty

/-- The `empty_patterns` list of `Neo4jDataProcessor.is_empty_value`. -/
def emptyPatterns : List PyStr :=
  [[], listChar "null", listChar "n/a", listChar "na",
   listChar "none", listChar "undefined"]

/-- Embeds `Neo4jDataProcessor.is_empty_value`. -/
def is_empty_value : Value → Bool
  | .vnull => true
  | .vstr s => emptyPatterns.contains ((pyStrip s).map pyToLower)
  | .vlist xs => xs.length == 0
  | .vdict ps => ps.length == 0
  | _ => false

mutual

/-- One iteration of the loop body of `filter_empty_values`: the
(zero- or one-element) contribution of the entry `(k, v)` to the
filtered dictionary. -/
def filterEntry (k : String) (v : Value) : List (String × Value) :=
  if is_empty_value v then []
  else
    match v with
    | .vdict ps =>
      let fn := filter_empty_values ps
      if fn.isEmpty then [] else [(k, .vdict fn)]
    | .vlist xs =>
      let fl := xs.filter (fun it => !is_empty_value it)
      if fl.isEmpty then [] else [(k, .vlist fl)]
    | _ => [(k, v)]

/-- Embeds `Neo4jDataProcessor.filter_empty_values`. -/
def filter_empty_values : List (String × Value) → List (String × Value)
  | [] => []
  | (k, v) :: rest => filterEntry k v ++ filter_empty_values rest
end

/-! ### Date normalization (`Neo4jDataProcessor.normalize_date`) -/

/-- Does the suffix start with the regex pattern of one date,
digit-digit-slash-digit-digit-slash-four-digits (the `re.search` body)? -/
def matchesDatePrefix : PyStr → Bool
  | d1 :: d2 :: '/' :: m1 :: m2 :: '/' :: y1 :: y2 :: y3 :: y4 :: _ =>
    [d1, d2, m1, m2, y1, y2, y3, y4].all Char.isDigit
  | _ => false

/-- Models `re.search` for the unanchored date pattern: leftmost match. -/
def searchDate : PyStr → Option PyStr
  | [] => none
  | c :: rest =>
    if matchesDatePrefix (c :: rest) then some ((c :: rest).take 10)
    else searchDate rest

/-- Models `re.match` against anchored ISO `YYYY-MM-DD` (whole cleaned
string): ten characters, dashes at offsets 4 and 7, digits elsewhere. -/
def isISO : PyStr → Bool
  | [y1, y2, y3, y4, h1, m1, m2, h2, d1, d2] =>
    h1 = '-' && h2 = '-' && [y1, y2, y3, y4, m1, m2, d1, d2].all Char.isDigit
  | _ => false

/-- Embeds `Neo4jDataProcessor.normalize_date` on a string argument.
The slash-format branch spells the anchored `DD/MM/YYYY` regex test as
ten characters with slashes at offsets 2 and 5 and digits elsewhere,
followed by `split('/')` in place; `zfill(2)` on the two-character day
and month components is the identity and is omitted. -/
def normalize_date (s : PyStr) : Option PyStr :=
  if s.isEmpty || is_empty_value (.vstr s) then none
  else
    let c1 := pyRstrip (pyStrip s) ['.', ',', ';', ':']
    let c2 := if c1.contains '(' && c1.contains ')' then
                match searchDate c1 with
                | some m => m
                | none => c1
              else c1
    match c2 with
    | [d1, d2, s1, m1, m2, s2, y1, y2, y3, y4] =>
      if s1 = '/' && s2 = '/' &&
         [d1, d2, m1, m2, y1, y2, y3, y4].all Char.isDigit then
        if 1 ≤ natOfDigits [d1, d2] && natOfDigits [d1, d2] ≤ 31 &&
           1 ≤ natOfDigits [m1, m2] && natOfDigits [m1, m2] ≤ 12 then
          some ([y1, y2, y3, y4] ++ '-' :: [m1, m2] ++ '-' :: [d1, d2])
        else if isISO c2 then some c2 else none
      else if isISO c2 then some c2 else none
    | _ => if isISO c2 then some c2 else none

/-- `normalize_date` as called on an arbitrary field value.  Python's
falsy/empty guard returns `None`; calling `.strip()` on a non-string
raises inside the `try` block, which the handler turns into `None`. -/
def normalize_date_value : Value → Option PyStr
  | .vstr s => normalize_date s
  | _ => none

/-! ### Alias normalization (`Neo4jDataProcessor.normalize_alias`) -/

mutual

/-- Models `re.sub(r'\s+', ' ', s)`: each maximal whitespace run becomes
a single space (a run's first character emits the space, the rest of
the run is skipped by `collapseWsSkip`). -/
def collapseWs : PyStr → PyStr
  | [] => []
  | c :: rest =>
    if pyIsSpace c then ' ' :: collapseWsSkip rest
    else c :: collapseWs rest

/-- Skip the remainder of a whitespace run, then resume `collapseWs`. -/
def collapseWsSkip : PyStr → PyStr
  | [] => []
  | c :: rest =>
    if pyIsSpace c then collapseWsSkip rest
    else c :: collapseWs rest

end

/-- The `accent_map` table of `normalize_alias`, in source order. -/
def accentMap : List (Char × Char) :=
  [('é', 'e'), ('è', 'e'), ('ê', 'e'), ('ë', 'e'),
   ('á', 'a'), ('à', 'a'), ('â', 'a'), ('ä', 'a'),
   ('í', 'i'), ('ì', 'i'), ('î', 'i'), ('ï', 'i'),
   ('ó', 'o'), ('ò', 'o'), ('ô', 'o'), ('ö', 'o'),
   ('ú', 'u'), ('ù', 'u'), ('û', 'u'), ('ü', 'u'),
   ('ñ', 'n'), ('ç', 'c')]

/-- The final loop of `normalize_alias`: successive single-character
`str.replace` calls for each accent-map entry. -/
def applyAccentMap (s : PyStr) : PyStr :=
  accentMap.foldl (fun acc p => acc.map (fun c => if c = p.1 then p.2 else c)) s

/-- Keep-predicate of `re.sub(r'[^a-z0-9\s]', '', s)`. -/
def aliasKeep (c : Char) : Bool :=
  ('a' ≤ c && c ≤ 'z') || ('0' ≤ c && c ≤ '9') || pyIsSpace c

/-- Embeds `Neo4jDataProcessor.normalize_alias`. -/
def normalize_alias (s : PyStr) : PyStr :=
  if s.isEmpty then []
  else
    let n1 := s.map pyToLower
    let n2 := pyStrip n1
    let n3 := collapseWs n2
    let n4 := n3.filter aliasKeep
    applyAccentMap n4

/-- `normalize_alias` as called on an arbitrary alias value: falsy
values short-circuit to the empty string, non-string truthy values
raise (`.lower()` fails), strings are normalized. -/
def normalize_alias_value : Value → Option PyStr
  | v =>
    if pyFalsy v then some []
    else
      match v with
      | .vstr s => some (normalize_alias s)
      | _ => none

/-! ### Country resolution (`get_valid_countries`,
`extract_country_from_location`) -/

/-- Embeds `Neo4jDataProcessor.get_valid_countries`: entries are
(variant, code, canonical name), in source order. -/
def get_valid_countries : List (String × String × String) :=
  [("russia", "RU", "Russia"),
   ("russian federation", "RU", "Russia"),
   ("russian", "RU", "Russia"),
   ("china", "CN", "China"),
   ("people's republic of china", "CN", "China"),
   ("chinese", "CN", "China"),
   ("iran", "IR", "Iran"),
   ("islamic republic of iran", "IR", "Iran"),
   ("iranian", "IR", "Iran"),
   ("north korea", "KP", "North Korea"),
   ("democratic people's republic of korea", "KP", "North Korea"),
   ("dprk", "KP", "North Korea"),
   ("united kingdom", "GB", "United Kingdom"),
   ("uk", "GB", "United Kingdom"),
   ("great britain", "GB", "United Kingdom"),
   ("britain", "GB", "United Kingdom"),
   ("united states", "US", "United States"),
   ("united states of america", "US", "United States"),
   ("usa", "US", "United States"),
   ("america", "US", "United States"),
   ("ukraine", "UA", "Ukraine"),
   ("kyrgyzstan", "KG", "Kyrgyzstan"),
   ("kyrgyz republic", "KG", "Kyrgyzstan"),
   ("kazakhstan", "KZ", "Kazakhstan"),
   ("republic of kazakhstan", "KZ", "Kazakhstan"),
   ("belarus", "BY", "Belarus"),
   ("republic of belarus", "BY", "Belarus"),
   ("syria", "SY", "Syria"),
   ("syrian arab republic", "SY", "Syria"),
   ("myanmar", "MM", "Myanmar"),
   ("burma", "MM", "Myanmar"),
   ("venezuela", "VE", "Venezuela"),
   ("bolivia", "BO", "Bolivia"),
   ("nicaragua", "NI", "Nicaragua"),
   ("libya", "LY", "Libya"),
   ("mali", "ML", "Mali"),
   ("zimbabwe", "ZW", "Zimbabwe"),
   ("serbia", "RS", "Serbia"),
   ("turkey", "TR", "Turkey"),
   ("turkiye", "TR", "Turkey"),
   ("afghanistan", "AF", "Afghanistan"),
   ("lebanon", "LB", "Lebanon"),
   ("iraq", "IQ", "Iraq"),
   ("somalia", "SO", "Somalia"),
   ("sudan", "SD", "Sudan"),
   ("yemen", "YE", "Yemen"),
   ("cuba", "CU", "Cuba"),
   ("moldova", "MD", "Moldova"),
   ("georgia", "GE", "Georgia"),
   ("armenia", "AM", "Armenia"),
   ("azerbaijan", "AZ", "Azerbaijan"),
   ("uzbekistan", "UZ", "Uzbekistan"),
   ("tajikistan", "TJ", "Tajikistan"),
   ("turkmenistan", "TM", "Turkmenistan")]

/-- Registry membership test plus canonical-name projection
(`part in valid_countries` and `valid_countries[part]['name']`). -/
def countryLookup (key : PyStr) : Option String :=
  (get_valid_countries.find? (fun e => e.1.data == key)).map (fun e => e.2.2)

/-- Embeds `Neo4jDataProcessor.extract_country_from_location`. -/
def extract_country_from_location (s : PyStr) : Option String :=
  if s.isEmpty || is_empty_value (.vstr s) then none
  else
    let cleaned := (pyStrip s).map pyToLower
    let fromParts :=
      if cleaned.contains ',' then
        ((splitOnChar cleaned ',').map pyStrip).reverse.findSome? countryLookup
      else none
    match fromParts with
    | some n => some n
    | none => countryLookup cleaned

/-- `extract_country_from_location` as called on an arbitrary field
value.  `some none` is a normal "unresolved" return; `none` models the
uncaught exception raised by `.strip()` on a truthy non-string. -/
def extract_country_value : Value → Option (Option String)
  | v =>
    if pyFalsy v || is_empty_value v then some none
    else
      match v with
      | .vstr s => some (extract_country_from_location s)
      | _ => none

/-! ### Python dict operations (ordered, unique-key association lists) -/

/-- `key in d`. -/
def hasKey (d : List (String × Value)) (k : String) : Bool :=
  d.any (fun p => p.1 == k)

/-- `d[key]` / `d.get(key)`: value at the first occurrence of the key. -/
def dget (d : List (String × Value)) (k : String) : Option Value :=
  (d.find? (fun p => p.1 == k)).map (fun p => p.2)

/-- `d[key] = v`: replace in place if the key exists (keys are unique
in a Python dict, so replacing the first occurrence is replacement),
else append. -/
def dset : List (String × Value) → String → Value → List (String × Value)
  | [], k, v => [(k, v)]
  | p :: rest, k, v =>
    if p.1 == k then (k, v) :: rest else p :: dset rest k v

/-- `d.pop(key, None)`: remove the key. -/
def dpop (d : List (String × Value)) (k : String) : List (String × Value) :=
  d.filter (fun p => p.1 != k)

/-! ### Record processing (`process_individual`, `process_entity`) -/

/-- Embeds `generate_unique_id`: `u` stands for the `str(uuid.uuid4())`
value produced by the call (threaded explicitly since the source draws
it from a random source). -/
def generate_unique_id (pre : PyStr) (u : PyStr) : PyStr :=
  if pre.isEmpty then u else pre ++ '_' :: u

/-- Python iteration `for x in v`: list elements; characters of a
string (as one-character strings); keys of a dict.  `none` models the
`TypeError` raised on a non-iterable. -/
def pyIter : Value → Option (List Value)
  | .vlist xs => some xs
  | .vstr s => some (s.map (fun c => .vstr [c]))
  | .vdict ps => some (ps.map (fun p => .vstr p.1.data))
  | _ => none

/-- The alias loop body of `process_individual` / `process_entity`:
skip empty aliases, keep the original as `aliasName`, attach the
normalized `aliasId` and the per-class constant `aliasType`.
`none` models an exception from `normalize_alias` on a bad alias. -/
def processAliases (aliasType : String) : List Value → Option (List Value)
  | [] => some []
  | a :: rest =>
    if is_empty_value a then processAliases aliasType rest
    else
      match normalize_alias_value a with
      | none => none
      | some nid =>
        (processAliases aliasType rest).map (fun r =>
          Value.vdict [("aliasName", a), ("aliasId", .vstr nid),
                       ("aliasType", .vstr aliasType.data)] :: r)

/-- One iteration of the date-normalization loop: replace the field by
its normalized form, or pop it when normalization yields `None`. -/
def dateStep (f : List (String × Value)) (fld : String) :
    List (String × Value) :=
  if hasKey f fld then
    match dget f fld with
    | some v =>
      match normalize_date_value v with
      | some nd => dset f fld (.vstr nd)
      | none => dpop f fld
    | none => f
  else f

/-- The alias block of `process_individual` / `process_entity`:
`if 'aliases' in filtered_data and filtered_data['aliases']`, build
`processed_aliases`.  `none` models an uncaught exception. -/
def aliasStage (aliasType : String) (f1 : List (String × Value)) :
    Option (List (String × Value)) :=
  match dget f1 "aliases" with
  | none => some f1
  | some av =>
    if pyFalsy av then some f1
    else
      match pyIter av with
      | none => none
      | some items =>
        (processAliases aliasType items).map (fun pas =>
          dset f1 "processed_aliases" (.vlist pas))

/-- The address block of `process_individual` / `process_entity`:
re-filter the address, attach a fresh `addressId`, validate the country
(dropping it when unresolved).  `none` models an uncaught exception. -/
def addressStage (u : PyStr) (f2 : List (String × Value)) :
    Option (List (String × Value)) :=
  match dget f2 "address" with
  | none => some f2
  | some av =>
    if pyFalsy av then some f2
    else
      match av with
      | .vdict ps =>
        let ad0 := filter_empty_values ps
        if ad0.isEmpty then some f2
        else
          let ad1 := dset ad0 "addressId"
            (.vstr (generate_unique_id (listChar "addr") u))
          match dget ad1 "country" with
          | none => some (dset f2 "address" (.vdict ad1))
          | some cv =>
            (extract_country_value cv).map (fun vc =>
              let ad2 := match vc with
                         | some name => dset ad1 "country" (.vstr name.data)
                         | none => dpop ad1 "country"
              dset f2 "address" (.vdict ad2))
      | _ => none

/-- The shared body of `process_individual` and `process_entity`
(the two methods are line-for-line identical up to the date-field list
and the alias-type constant): empty filtering, then the date loop, the
alias block, the address block.  `u` is the `uuid.uuid4()` value used
for the address id.  `none` models an uncaught exception. -/
def process_record (dateFields : List String) (aliasType : String)
    (u : PyStr) (data : List (String × Value)) :
    Option (List (String × Value)) :=
  match aliasStage aliasType
      (dateFields.foldl dateStep (filter_empty_values data)) with
  | none => none
  | some f2 => addressStage u f2

/-- Embeds `Neo4jDataProcessor.process_individual`. -/
def process_individual (u : PyStr) (data : List (String × Value)) :
    Option (List (String × Value)) :=
  process_record ["dateOfBirth", "listedOn", "dateDesignated", "lastUpdated",
                  "dateTrustServicesSanctionsImposed"] "UNKNOWN" u data

/-- Embeds `Neo4jDataProcessor.process_entity`. -/
def process_entity (u : PyStr) (data : List (String × Value)) :
    Option (List (String × Value)) :=
  process_record ["listedOn", "dateDesignated", "lastUpdated"] "TRADENAME" u data

/-! ### Text segmentation (`text_parser.split_individuals_text`) -/

/-- Index of the last newline of a whitespace run (the greedy `\s*`
backtracks to the final `\n` it can leave for the literal). -/
def lastNlIdx (run : PyStr) : Option Nat :=
  (run.reverse.findIdx? (fun c => c = '\n')).map (fun j => run.length - 1 - j)

/-- Match length of the section-label regex `LABEL\s*\n` (IGNORECASE)
at the head of `s`; `label` is given lowercase. -/
def matchLabelAt (label : PyStr) (s : PyStr) : Option Nat :=
  if (s.take label.length).map pyToLower = label then
    let run := (s.drop label.length).takeWhile pyIsSpace
    match lastNlIdx run with
    | some k => some (label.length + k + 1)
    | none => none
  else none

/-- Models `re.search` for `LABEL\s*\n`: scan for the leftmost match,
returning its start and end offsets. -/
def searchLabel (label : PyStr) : PyStr → Nat → Option (Nat × Nat)
  | [], pos =>
    match matchLabelAt label [] with
    | some n => some (pos, pos + n)
    | none => none
  | c :: rest, pos =>
    match matchLabelAt label (c :: rest) with
    | some n => some (pos, pos + n)
    | none => searchLabel label rest (pos + 1)

/-- Match length of the captured group `\d+\.\s*Name\s*6:` at the head
of `s` (greedy `\d+` and `\s*` backtrack only to fail, so each piece is
the maximal run followed by its literal). -/
def matchGroupLen (s : PyStr) : Option Nat :=
  if (s.takeWhile Char.isDigit).length = 0 then none
  else
    match s.drop (s.takeWhile Char.isDigit).length with
    | '.' :: r1 =>
      match r1.drop (r1.takeWhile pyIsSpace).length with
      | 'N' :: 'a' :: 'm' :: 'e' :: r3 =>
        match r3.drop (r3.takeWhile pyIsSpace).length with
        | '6' :: ':' :: _ =>
          some ((s.takeWhile Char.isDigit).length + 1 +
                (r1.takeWhile pyIsSpace).length + 4 +
                (r3.takeWhile pyIsSpace).length + 2)
        | _ => none
      | _ => none
    | _ => none

/-- Models `re.split(r'(?:^|\n)(\d+\.\s*Name\s*6:)', s, flags=MULTILINE)`:
scan left to right; at a line start the zero-width `^` alternative
applies, otherwise a literal `\n` is consumed (and dropped, as an
uncaptured part of the match); the captured group is kept as its own
piece.  `lineStart` records whether the current position starts a line;
`acc` accumulates the current uncaptured piece in reverse.  The scan is
driven by an explicit character budget (first argument) so that the
recursion is structural; `splitLoop` below instantiates the budget with
the string length, which the scan never exhausts because every match
consumes at least one character. -/
def splitLoopF : Nat → PyStr → Bool → PyStr → List PyStr
  | _, [], _, acc => [acc.reverse]
  | 0, s, _, acc => [acc.reverse ++ s]
  | fuel + 1, c :: rest, lineStart, acc =>
    match (if lineStart then matchGroupLen (c :: rest) else none) with
    | some n =>
      acc.reverse :: (c :: rest).take n ::
        splitLoopF fuel ((c :: rest).drop n) false []
    | none =>
      match (if c = '\n' then matchGroupLen rest else none) with
      | some m =>
        acc.reverse :: rest.take m :: splitLoopF fuel (rest.drop m) false []
      | none => splitLoopF fuel rest (c = '\n') (c :: acc)

/-- The split scan at its actual budget. -/
def splitLoop (s : PyStr) (lineStart : Bool) (acc : PyStr) : List PyStr :=
  splitLoopF s.length s lineStart acc

/-- The chunk-collection loop: pair up consecutive split pieces
(`splits[i] + splits[i+1]` for even `i`), strip each, drop an unpaired
trailing piece. -/
def collectPairs : List PyStr → List PyStr
  | a :: b :: rest => pyStrip (a ++ b) :: collectPairs rest
  | _ => []

/-- Embeds `text_parser.split_individuals_text`. -/
def split_individuals_text (text : PyStr) : List PyStr :=
  match searchLabel (listChar "individuals") text 0 with
  | none => []
  | some (_, e) =>
    let tail := text.drop e
    let indText :=
      match searchLabel (listChar "entities") tail 0 with
      | some (st, _) => tail.take st
      | none => tail
    let splits := splitLoop indText true []
    if splits.length ≤ 1 then []
    else
      match splits with
      | [] => []
      | s0 :: _ =>
        collectPairs (splits.drop (if (pyStrip s0).isEmpty then 1 else 0))

/-! ### Incremental persistence (`file_operations.FileManager`) -/

/-- The two ledger files of the output directory; `none` = the file
does not exist, `some v` = it exists and parses to the JSON value `v`. -/
structure LedgerFS where
  ind : Option Value
  ent : Option Value

/-- `FileManager` state: the filesystem plus the manager's own fields
(`individuals_output_path` / `entities_output_path` being assigned, and
the `files_initialized` flag). -/
structure FMState where
  fs : LedgerFS
  pathsSet : Bool
  filesInitialized : Bool

/-- Embeds `FileManager.initialize_output_files`. -/
def initialize_output_files (s : FMState) (appendMode : Bool) : FMState :=
  if s.filesInitialized && !appendMode then s
  else
    let ind1 := if appendMode then
                  match s.fs.ind with
                  | none => some (Value.vlist [])
                  | some v => some v
                else some (Value.vlist [])
    let ent1 := if appendMode then
                  match s.fs.ent with
                  | none => some (Value.vlist [])
                  | some v => some v
                else some (Value.vlist [])
    { fs := ⟨ind1, ent1⟩, pathsSet := true, filesInitialized := true }

/-- `len(data) if isinstance(data, list) else 0`, with a missing or
unreadable file counting as `0`. -/
def countOf : Option Value → Nat
  | some (.vlist xs) => xs.length
  | _ => 0

/-- Embeds `FileManager.get_existing_record_counts` (counts are `0`
when the output paths have not been assigned yet). -/
def get_existing_record_counts (s : FMState) : Nat × Nat :=
  (if s.pathsSet then countOf s.fs.ind else 0,
   if s.pathsSet then countOf s.fs.ent else 0)

/-- Embeds `FileManager.append_to_json_file` acting on one ledger
file's parsed content: read the array, append, write back.  `none`
models the raised exception when the content is not a JSON array
(`data.append` fails) or the file is missing (`open` fails). -/
def append_to_json_file (content : Option Value) (newRec : Value) :
    Option Value :=
  match content with
  | some (.vlist xs) => some (.vlist (xs ++ [newRec]))
  | _ => none

/-- A sequence of `append_to_json_file` calls, stopping at the first
failure. -/
def appendAll (content : Option Value) : List Value → Option Value
  | [] => content
  | r :: rs =>
    match append_to_json_file content r with
    | some c => appendAll (some c) rs
    | none => none

/-! ### Spec-side definitions (used to state the claims, not taken
from the source) -/

/-- Modelled from the spec: the five empty tokens the claims list for
`is_empty_value` (the claimed characterization, to compare with the
source's `emptyPatterns`). -/
def claimedEmptyTokens : List PyStr :=
  [[], listChar "n/a", listChar "na", listChar "none", listChar "undefined"]

/-- A value is a scalar (not a sequence or a mapping). -/
def isScalar : Value → Bool
  | .vlist _ => false
  | .vdict _ => false
  | _ => true

/-- Modelled from the spec, amended: the six empty tokens actually
recognized by the code (the claimed five plus `"null"`). -/
def amendedEmptyTokens : List PyStr :=
  [[], listChar "null", listChar "n/a", listChar "na",
   listChar "none", listChar "undefined"]

/-- Spec-side detector for two adjacent spaces (the doubled-space
condition of the alias claim). -/
def hasDoubledSpace : PyStr → Bool
  | ' ' :: ' ' :: _ => true
  | _ :: rest => hasDoubledSpace rest
  | [] => false

/-- Spec-side rendering of a number as exactly two decimal digits
(the `DD` / `MM` components of a date string). -/
def twoDigits (n : Nat) : PyStr :=
  [Nat.digitChar (n / 10 % 10), Nat.digitChar (n % 10)]

/-- Spec-side rendering of a number as exactly four decimal digits
(the `YYYY` component of a date string). -/
def fourDigits (y : Nat) : PyStr :=
  [Nat.digitChar (y / 1000 % 10), Nat.digitChar (y / 100 % 10),
   Nat.digitChar (y / 10 % 10), Nat.digitChar (y % 10)]

/-- Spec-side scan of `extract_country_from_location` for
comma-separated input: trimmed components checked last to first
against the registry, first hit's canonical name. -/
def scanCountryComponents (cleaned : PyStr) : Option String :=
  ((splitOnChar cleaned ',').map pyStrip).reverse.findSome? countryLookup

/-- A record anchor line `<num>. Name 6:` as it appears in the source
document (spec-side document constructor for the segmentation claims). -/
def mkAnchor (num : Nat) : PyStr :=
  Nat.toDigits 10 num ++ '.' :: ' ' :: listChar "Name 6:"

/-- A well-formed run of records: each record is its anchor followed
by its body, consecutive records separated by the newline that makes
each anchor start a line (spec-side document constructor). -/
def recsText : List (Nat × PyStr) → PyStr
  | [] => []
  | [(num, body)] => mkAnchor num ++ body
  | (num, body) :: r :: rest => mkAnchor num ++ body ++ '\n' :: recsText (r :: rest)

mutual

/-- Does an empty-classified scalar occur anywhere inside a value
(at any nesting depth through sequences and mappings)?  Spec-side
detector for the empty-filtering claims. -/
def hasEmptyScalarInside : Value → Bool
  | .vlist xs => hasEmptyInList xs
  | .vdict ps => hasEmptyInDict ps
  | v => is_empty_value v

/-- `hasEmptyScalarInside` over the elements of a sequence. -/
def hasEmptyInList : List Value → Bool
  | [] => false
  | v :: rest => hasEmptyScalarInside v || hasEmptyInList rest

/-- `hasEmptyScalarInside` over the values of a mapping. -/
def hasEmptyInDict : List (String × Value) → Bool
  | [] => false
  | (_, v) :: rest => hasEmptyScalarInside v || hasEmptyInDict rest

end

/-! ## Helper lemmas -/

theorem dget_cons_pos (p : String × Value) (rest : List (String × Value))
    (k : String) (h : (p.1 == k) = true) : dget (p :: rest) k = some p.2 := by
  simp [dget, List.find?_cons, h]

theorem dget_cons_neg (p : String × Value) (rest : List (String × Value))
    (k : String) (h : (p.1 == k) = false) :
    dget (p :: rest) k = dget rest k := by
  simp [dget, List.find?_cons, h]

theorem hasKey_cons (p : String × Value) (rest : List (String × Value))
    (k : String) :
    hasKey (p :: rest) k = ((p.1 == k) || hasKey rest k) := by
  simp [hasKey]

theorem dpop_cons_pos (p : String × Value) (rest : List (String × Value))
    (k : String) (h : (p.1 == k) = true) : dpop (p :: rest) k = dpop rest k := by
  have h' : (p.1 != k) = false := by simp [bne, h]
  simp [dpop, List.filter_cons, h']

theorem dpop_cons_neg (p : String × Value) (rest : List (String × Value))
    (k : String) (h : (p.1 == k) = false) :
    dpop (p :: rest) k = p :: dpop rest k := by
  have h' : (p.1 != k) = true := by simp [bne, h]
  simp [dpop, List.filter_cons, h']

theorem dget_eq_none_iff (d : List (String × Value)) (k : String) :
    dget d k = none ↔ hasKey d k = false := by
  induction d with
  | nil => simp [dget, hasKey]
  | cons p rest ih =>
    rw [hasKey_cons]
    rcases h : (p.1 == k) with _ | _
    · rw [dget_cons_neg _ _ _ h]
      simpa using ih
    · rw [dget_cons_pos _ _ _ h]
      simp

theorem dget_dset_self (d : List (String × Value)) (k : String) (v : Value) :
    dget (dset d k v) k = some v := by
  induction d with
  | nil => exact dget_cons_pos _ _ _ (by simp)
  | cons p rest ih =>
    rw [dset]
    rcases h : (p.1 == k) with _ | _
    · rw [if_neg (by simp [h]), dget_cons_neg _ _ _ h]
      exact ih
    · rw [if_pos (by simp [h])]
      exact dget_cons_pos _ _ _ (by simp)

theorem dget_dset_other (d : List (String × Value)) (k k' : String) (v : Value)
    (h : k' ≠ k) : dget (dset d k v) k' = dget d k' := by
  induction d with
  | nil =>
    rw [dset, dget_cons_neg _ _ _ (by simp [Ne.symm h])]
  | cons p rest ih =>
    rw [dset]
    rcases hp : (p.1 == k) with _ | _
    · rcases hp' : (p.1 == k') with _ | _
      · rw [if_neg (by simp [hp]), dget_cons_neg _ _ _ hp',
            dget_cons_neg _ _ _ hp']
        exact ih
      · rw [if_neg (by simp [hp]), dget_cons_pos _ _ _ hp',
            dget_cons_pos _ _ _ hp']
    · have hpk : p.1 = k := by simpa using hp
      have hp' : (p.1 == k') = false := by simp [hpk, Ne.symm h]
      rw [if_pos (by simp [hp]), dget_cons_neg _ _ _ (by simp [Ne.symm h]),
          dget_cons_neg _ _ _ hp']

theorem dget_dpop_self (d : List (String × Value)) (k : String) :
    dget (dpop d k) k = none := by
  induction d with
  | nil => simp [dget, dpop]
  | cons p rest ih =>
    rcases h : (p.1 == k) with _ | _
    · rw [dpop_cons_neg _ _ _ h, dget_cons_neg _ _ _ h]
      exact ih
    · rw [dpop_cons_pos _ _ _ h]
      exact ih

theorem dget_dpop_other (d : List (String × Value)) (k k' : String)
    (h : k' ≠ k) : dget (dpop d k) k' = dget d k' := by
  induction d with
  | nil => simp [dget, dpop]
  | cons p rest ih =>
    rcases hp : (p.1 == k) with _ | _
    · rcases hp' : (p.1 == k') with _ | _
      · rw [dpop_cons_neg _ _ _ hp, dget_cons_neg _ _ _ hp',
            dget_cons_neg _ _ _ hp']
        exact ih
      · rw [dpop_cons_neg _ _ _ hp, dget_cons_pos _ _ _ hp',
            dget_cons_pos _ _ _ hp']
    · have hpk : p.1 = k := by simpa using hp
      have hp' : (p.1 == k') = false := by simp [hpk, Ne.symm h]
      rw [dpop_cons_pos _ _ _ hp, dget_cons_neg _ _ _ hp']
      exact ih

theorem matchGroupLen_pos (s : PyStr) (n : Nat) (h : matchGroupLen s = some n) :
    1 ≤ n := by
  unfold matchGroupLen at h
  split at h <;> try simp only [Option.some.injEq, reduceCtorEq] at h
  split at h <;> try simp only [Option.some.injEq, reduceCtorEq] at h
  split at h <;> try simp only [Option.some.injEq, reduceCtorEq] at h
  split at h <;> try simp only [Option.some.injEq, reduceCtorEq] at h
  omega

theorem splitLoopF_fuel (f : Nat) (s : PyStr) (ls : Bool) (acc : PyStr)
    (hf : s.length ≤ f) : splitLoopF f s ls acc = splitLoopF s.length s ls acc := by
  induction f using Nat.strong_induction_on generalizing s ls acc with
  | _ f ih =>
    rcases s with _ | ⟨c, rest⟩
    · cases f <;> rfl
    · rcases f with _ | f
      · simp at hf
      have hr : rest.length ≤ f := by
        simpa using hf
      rw [splitLoopF]
      show _ = splitLoopF (rest.length + 1) (c :: rest) ls acc
      rw [splitLoopF]
      rcases hm : (if ls then matchGroupLen (c :: rest) else none) with _ | n
      · rcases hm2 : (if c = '\n' then matchGroupLen rest else none) with _ | m
        · dsimp only
          rw [ih f (by omega) rest _ _ hr,
              ih rest.length (by omega) rest _ _ (le_refl _)]
        · have hlen : (rest.drop m).length ≤ rest.length := by
            simp
          dsimp only
          rw [ih f (by omega) (rest.drop m) false [] (le_trans hlen hr),
              ih rest.length (by omega) (rest.drop m) false [] hlen]
      · have hmg : matchGroupLen (c :: rest) = some n := by
          cases ls with
          | false => simp at hm
          | true => simpa using hm
        have hn : 1 ≤ n := matchGroupLen_pos _ _ hmg
        have hlen : ((c :: rest).drop n).length ≤ rest.length := by
          simp only [List.length_drop, List.length_cons]
          omega
        dsimp only
        rw [ih f (by omega) ((c :: rest).drop n) false [] (le_trans hlen hr),
            ih rest.length (by omega) ((c :: rest).drop n) false [] hlen]

theorem splitLoop_nil (ls : Bool) (acc : PyStr) :
    splitLoop [] ls acc = [acc.reverse] := rfl

theorem splitLoop_line_match (c : Char) (rest acc : PyStr) (n : Nat)
    (h : matchGroupLen (c :: rest) = some n) :
    splitLoop (c :: rest) true acc =
      acc.reverse :: (c :: rest).take n ::
        splitLoop ((c :: rest).drop n) false [] := by
  have hn : 1 ≤ n := matchGroupLen_pos _ _ h
  show splitLoopF (rest.length + 1) (c :: rest) true acc = _
  rw [splitLoopF]
  have hs : (if (true : Bool) then matchGroupLen (c :: rest) else none) =
      some n := by simpa using h
  rw [hs]
  dsimp only
  rw [splitLoopF_fuel rest.length ((c :: rest).drop n) false []
        (by simp only [List.length_drop, List.length_cons]; omega)]
  rfl

theorem splitLoop_nl_match (rest acc : PyStr) (ls : Bool) (m : Nat)
    (h : matchGroupLen rest = some m) :
    splitLoop ('\n' :: rest) ls acc =
      acc.reverse :: rest.take m :: splitLoop (rest.drop m) false [] := by
  have hl : (if ls then matchGroupLen ('\n' :: rest) else none) = none := by
    cases ls <;> simp [matchGroupLen, List.takeWhile]
  show splitLoopF (rest.length + 1) ('\n' :: rest) ls acc = _
  rw [splitLoopF]
  rw [hl]
  dsimp only
  have hs : (if ('\n' : Char) = '\n' then matchGroupLen rest else none) =
      some m := by simpa using h
  rw [hs]
  dsimp only
  rw [splitLoopF_fuel rest.length (rest.drop m) false [] (by simp)]
  rfl

theorem splitLoop_step (c : Char) (rest acc : PyStr) (ls : Bool)
    (h1 : (if ls then matchGroupLen (c :: rest) else none) = none)
    (h2 : (if c = '\n' then matchGroupLen rest else none) = none) :
    splitLoop (c :: rest) ls acc = splitLoop rest (c = '\n') (c :: acc) := by
  show splitLoopF (rest.length + 1) (c :: rest) ls acc = _
  rw [splitLoopF]
  rw [h1]
  dsimp only
  rw [h2]
  dsimp only
  exact splitLoopF_fuel rest.length rest _ _ (le_refl _)

theorem appendAll_vlist (rs xs : List Value) :
    appendAll (some (.vlist xs)) rs = some (.vlist (xs ++ rs)) := by
  induction rs generalizing xs with
  | nil => simp [appendAll]
  | cons r rs ih =>
    rw [appendAll]
    show appendAll (some (.vlist (xs ++ [r]))) rs = _
    rw [ih (xs ++ [r]), List.append_assoc]
    rfl

theorem hasKey_iff_ne_none (d : List (String × Value)) (k : String) :
    hasKey d k = true ↔ dget d k ≠ none := by
  constructor
  · intro hk hn
    rw [dget_eq_none_iff] at hn
    rw [hk] at hn
    cases hn
  · intro hn
    rcases hk : hasKey d k with _ | _
    · exact absurd ((dget_eq_none_iff d k).mpr hk) hn
    · rfl

theorem hasKey_dset_other (d : List (String × Value)) (k k' : String) (v : Value)
    (h : k' ≠ k) : hasKey (dset d k v) k' = hasKey d k' := by
  have h1 := dget_dset_other d k k' v h
  rcases hk2 : hasKey d k' with _ | _
  · rw [← dget_eq_none_iff] at hk2
    rw [← dget_eq_none_iff, h1]
    exact hk2
  · rw [hasKey_iff_ne_none] at hk2 ⊢
    rw [h1]
    exact hk2

theorem hasKey_dpop_other (d : List (String × Value)) (k k' : String)
    (h : k' ≠ k) : hasKey (dpop d k) k' = hasKey d k' := by
  have h1 := dget_dpop_other d k k' h
  rcases hk2 : hasKey d k' with _ | _
  · rw [← dget_eq_none_iff] at hk2
    rw [← dget_eq_none_iff, h1]
    exact hk2
  · rw [hasKey_iff_ne_none] at hk2 ⊢
    rw [h1]
    exact hk2

theorem hasKey_dpop_self (d : List (String × Value)) (k : String) :
    hasKey (dpop d k) k = false := by
  rw [← dget_eq_none_iff]
  exact dget_dpop_self d k

theorem isDigit_not_ws (c : Char) (h : c.isDigit = true) :
    pyIsSpace c = false := by
  rcases hw : pyIsSpace c with _ | _
  · rfl
  · exfalso
    have hc : ((c = ' ' ∨ c = '\t') ∨ c = '\x0d') ∨ c = '\n' := by
      simpa [pyIsSpace, Char.isWhitespace] using hw
    rcases hc with ((rfl | rfl) | rfl) | rfl <;> exact absurd h (by decide)

theorem isDigit_ne_of (c x : Char) (h : c.isDigit = true)
    (hx : x.isDigit = false) : c ≠ x := by
  intro he
  rw [he] at h
  rw [h] at hx
  cases hx

theorem dropWhile_all_false {α : Type} (p : α → Bool) (s : List α)
    (h : ∀ c ∈ s, p c = false) : s.dropWhile p = s := by
  induction s with
  | nil => rfl
  | cons a rest ih =>
    rw [List.dropWhile_cons, if_neg (by simp [h a (List.mem_cons_self _ _)])]

theorem pyStrip_no_ws (s : PyStr) (h : ∀ c ∈ s, pyIsSpace c = false) :
    pyStrip s = s := by
  unfold pyStrip
  rw [dropWhile_all_false _ _ h,
      dropWhile_all_false _ _ (fun c hc => h c (List.mem_reverse.mp hc)),
      List.reverse_reverse]

theorem pyRstrip_noop (s cs : PyStr)
    (h : ∀ c ∈ s, cs.contains c = false) : pyRstrip s cs = s := by
  unfold pyRstrip
  rw [dropWhile_all_false _ _ (fun c hc => h c (List.mem_reverse.mp hc)),
      List.reverse_reverse]

theorem punct_contains_digit (c : Char) (h : c.isDigit = true) :
    (['.', ',', ';', ':'] : PyStr).contains c = false := by
  rcases hc : (['.', ',', ';', ':'] : PyStr).contains c with _ | _
  · rfl
  · exfalso
    have hm : c ∈ (['.', ',', ';', ':'] : PyStr) := by
      simpa using hc
    simp only [List.mem_cons, List.not_mem_nil, or_false] at hm
    rcases hm with rfl | rfl | rfl | rfl <;> exact absurd h (by decide)

theorem emptyPatterns_not_contains_len (l : PyStr) (h : l.length = 10) :
    emptyPatterns.contains l = false := by
  rcases hc : emptyPatterns.contains l with _ | _
  · rfl
  · exfalso
    have hm : l ∈ emptyPatterns := by simpa using hc
    simp only [emptyPatterns, List.mem_cons, List.not_mem_nil, or_false] at hm
    rcases hm with rfl | rfl | rfl | rfl | rfl | rfl <;>
      exact absurd h (by decide)

theorem digitChar_isDigit (k : Nat) (h : k < 10) :
    (Nat.digitChar k).isDigit = true := by
  interval_cases k <;> decide

theorem digitChar_toNat (k : Nat) (h : k < 10) :
    (Nat.digitChar k).toNat = 48 + k := by
  interval_cases k <;> decide

theorem natOfDigits_twoDigits (n : Nat) (h : n ≤ 99) :
    natOfDigits (twoDigits n) = n := by
  unfold natOfDigits twoDigits
  rw [List.foldl_cons, List.foldl_cons, List.foldl_nil,
      digitChar_toNat (n / 10 % 10) (by omega), digitChar_toNat (n % 10) (by omega)]
  omega

theorem normalize_date_digits (d1 d2 m1 m2 y1 y2 y3 y4 : Char)
    (hd1 : d1.isDigit = true) (hd2 : d2.isDigit = true)
    (hm1 : m1.isDigit = true) (hm2 : m2.isDigit = true)
    (hy1 : y1.isDigit = true) (hy2 : y2.isDigit = true)
    (hy3 : y3.isDigit = true) (hy4 : y4.isDigit = true) :
    normalize_date [d1, d2, '/', m1, m2, '/', y1, y2, y3, y4] =
      if (1 ≤ natOfDigits [d1, d2] && natOfDigits [d1, d2] ≤ 31 &&
          1 ≤ natOfDigits [m1, m2] && natOfDigits [m1, m2] ≤ 12) = true then
        some ([y1, y2, y3, y4] ++ '-' :: [m1, m2] ++ '-' :: [d1, d2])
      else none := by
  have hns : ∀ c ∈ ([d1, d2, '/', m1, m2, '/', y1, y2, y3, y4] : PyStr),
      pyIsSpace c = false := by
    intro c hcm
    simp only [List.mem_cons, List.not_mem_nil, or_false] at hcm
    rcases hcm with rfl | rfl | rfl | rfl | rfl | rfl | rfl | rfl | rfl | rfl
    exacts [isDigit_not_ws _ hd1, isDigit_not_ws _ hd2, by decide,
            isDigit_not_ws _ hm1, isDigit_not_ws _ hm2, by decide,
            isDigit_not_ws _ hy1, isDigit_not_ws _ hy2,
            isDigit_not_ws _ hy3, isDigit_not_ws _ hy4]
  have hpunct : ∀ c ∈ ([d1, d2, '/', m1, m2, '/', y1, y2, y3, y4] : PyStr),
      (['.', ',', ';', ':'] : PyStr).contains c = false := by
    intro c hcm
    simp only [List.mem_cons, List.not_mem_nil, or_false] at hcm
    rcases hcm with rfl | rfl | rfl | rfl | rfl | rfl | rfl | rfl | rfl | rfl
    exacts [punct_contains_digit _ hd1, punct_contains_digit _ hd2, by decide,
            punct_contains_digit _ hm1, punct_contains_digit _ hm2, by decide,
            punct_contains_digit _ hy1, punct_contains_digit _ hy2,
            punct_contains_digit _ hy3, punct_contains_digit _ hy4]
  have hstrip := pyStrip_no_ws _ hns
  have hrstrip := pyRstrip_noop _ _ hpunct
  have hparen :
      (([d1, d2, '/', m1, m2, '/', y1, y2, y3, y4]) : PyStr).contains '(' =
        false := by
    rcases hc : (([d1, d2, '/', m1, m2, '/', y1, y2, y3, y4]) : PyStr).contains
        '(' with _ | _
    · rfl
    · exfalso
      have hm : '(' ∈ ([d1, d2, '/', m1, m2, '/', y1, y2, y3, y4] : PyStr) := by
        simpa using hc
      simp only [List.mem_cons, List.not_mem_nil, or_false] at hm
      rcases hm with h | h | h | h | h | h | h | h | h | h
      exacts [isDigit_ne_of d1 '(' hd1 (by decide) h.symm,
              isDigit_ne_of d2 '(' hd2 (by decide) h.symm,
              absurd h (by decide),
              isDigit_ne_of m1 '(' hm1 (by decide) h.symm,
              isDigit_ne_of m2 '(' hm2 (by decide) h.symm,
              absurd h (by decide),
              isDigit_ne_of y1 '(' hy1 (by decide) h.symm,
              isDigit_ne_of y2 '(' hy2 (by decide) h.symm,
              isDigit_ne_of y3 '(' hy3 (by decide) h.symm,
              isDigit_ne_of y4 '(' hy4 (by decide) h.symm]
  have hempty :
      is_empty_value (.vstr [d1, d2, '/', m1, m2, '/', y1, y2, y3, y4]) =
        false := by
    show emptyPatterns.contains ((pyStrip _).map pyToLower) = false
    rw [hstrip]
    exact emptyPatterns_not_contains_len _ (by simp)
  have hiso : isISO [d1, d2, '/', m1, m2, '/', y1, y2, y3, y4] = false := by
    have hne := isDigit_ne_of m2 '-' hm2 (by decide)
    simp [isISO, hne]
  have hall : [d1, d2, m1, m2, y1, y2, y3, y4].all Char.isDigit = true := by
    simp [List.all_cons, hd1, hd2, hm1, hm2, hy1, hy2, hy3, hy4]
  rw [normalize_date, if_neg (by simp [hempty])]
  dsimp only
  rw [hstrip, hrstrip, hparen]
  simp only [Bool.false_and, Bool.false_eq_true, if_false]
  simp only [hall]
  rcases hB : (1 ≤ natOfDigits [d1, d2] && natOfDigits [d1, d2] ≤ 31 &&
      1 ≤ natOfDigits [m1, m2] && natOfDigits [m1, m2] ≤ 12) with _ | _
  · simp [hB, hiso]
  · simp [hB]

theorem filterEntry_cases (k : String) (v : Value) (p : String × Value)
    (hp : p ∈ filterEntry k v) :
    p.1 = k ∧ is_empty_value p.2 = false ∧
    ((∃ ps, v = Value.vdict ps ∧
        p.2 = Value.vdict (filter_empty_values ps) ∧
        filter_empty_values ps ≠ []) ∨
     (∃ xs, v = Value.vlist xs ∧
        p.2 = Value.vlist (xs.filter (fun it => !is_empty_value it)) ∧
        xs.filter (fun it => !is_empty_value it) ≠ []) ∨
     (isScalar v = true ∧ p.2 = v)) := by
  unfold filterEntry at hp
  by_cases he : is_empty_value v = true
  · rw [if_pos he] at hp
    cases hp
  · rw [if_neg he] at hp
    cases v with
    | vdict ps0 =>
      dsimp only at hp
      by_cases hne : (filter_empty_values ps0).isEmpty = true
      · rw [if_pos hne] at hp
        cases hp
      · rw [if_neg hne] at hp
        have hfn : filter_empty_values ps0 ≠ [] := by
          simpa [List.isEmpty_iff] using hne
        rcases List.mem_singleton.mp hp with rfl
        refine ⟨rfl, ?_, Or.inl ⟨ps0, rfl, rfl, hfn⟩⟩
        simpa [is_empty_value, List.length_eq_zero] using hfn
    | vlist xs0 =>
      dsimp only at hp
      by_cases hne : (xs0.filter (fun it => !is_empty_value it)).isEmpty = true
      · rw [if_pos hne] at hp
        cases hp
      · rw [if_neg hne] at hp
        have hfn : xs0.filter (fun it => !is_empty_value it) ≠ [] := by
          simpa [List.isEmpty_iff] using hne
        rcases List.mem_singleton.mp hp with rfl
        refine ⟨rfl, ?_, Or.inr (Or.inl ⟨xs0, rfl, rfl, hfn⟩)⟩
        simpa [is_empty_value, List.length_eq_zero] using hfn
    | vnull => simp [is_empty_value] at he
    | vbool b =>
      dsimp only at hp
      rcases List.mem_singleton.mp hp with rfl
      exact ⟨rfl, by simpa using he, Or.inr (Or.inr ⟨rfl, rfl⟩)⟩
    | vnum n =>
      dsimp only at hp
      rcases List.mem_singleton.mp hp with rfl
      exact ⟨rfl, by simpa using he, Or.inr (Or.inr ⟨rfl, rfl⟩)⟩
    | vstr str =>
      dsimp only at hp
      rcases List.mem_singleton.mp hp with rfl
      exact ⟨rfl, by simpa using he, Or.inr (Or.inr ⟨rfl, rfl⟩)⟩

theorem filterEntry_scalar (k : String) (v : Value) (hsc : isScalar v = true)
    (hne : is_empty_value v = false) : filterEntry k v = [(k, v)] := by
  cases v with
  | vnull => exact absurd hne (by decide)
  | vbool b =>
    unfold filterEntry
    rw [if_neg (by simp [hne])]
  | vnum n =>
    unfold filterEntry
    rw [if_neg (by simp [hne])]
  | vstr s =>
    unfold filterEntry
    rw [if_neg (by simp [hne])]
  | vlist xs => simp [isScalar] at hsc
  | vdict ps => simp [isScalar] at hsc

theorem dget_append_skip (l1 l2 : List (String × Value)) (k : String)
    (h : ∀ p ∈ l1, (p.1 == k) = false) : dget (l1 ++ l2) k = dget l2 k := by
  induction l1 with
  | nil => rfl
  | cons p rest ih =>
    rw [List.cons_append, dget_cons_neg _ _ _ (h p (List.mem_cons_self _ _))]
    exact ih (fun q hq => h q (List.mem_cons_of_mem _ hq))

theorem dget_filter_scalar (d : List (String × Value)) (k : String) (v : Value)
    (hg : dget d k = some v) (hne : is_empty_value v = false)
    (hsc : isScalar v = true) :
    dget (filter_empty_values d) k = some v := by
  induction d with
  | nil => cases hg
  | cons q rest ih =>
    rcases q with ⟨pk, pv⟩
    rw [filter_empty_values]
    rcases hb : ((pk, pv).1 == k) with _ | _
    · rw [dget_cons_neg _ _ _ hb] at hg
      rw [dget_append_skip _ _ _ ?_]
      · exact ih hg
      · intro p hp
        have h1 := (filterEntry_cases pk pv p hp).1
        simpa [h1] using hb
    · rw [dget_cons_pos _ _ _ hb] at hg
      have hpv : pv = v := by simpa using hg
      subst hpv
      rw [filterEntry_scalar pk pv hsc hne, List.singleton_append]
      exact dget_cons_pos _ _ _ hb

theorem hasKey_dateStep_other (f : List (String × Value)) (fld k : String)
    (h : k ≠ fld) : hasKey (dateStep f fld) k = hasKey f k := by
  unfold dateStep
  rcases hhk : hasKey f fld with _ | _
  · rw [if_neg (by simp [hhk])]
  · rw [if_pos (by simp [hhk])]
    rcases hg : dget f fld with _ | v
    · rfl
    · dsimp only
      rcases hn : normalize_date_value v with _ | nd
      · dsimp only
        exact hasKey_dpop_other f fld k h
      · dsimp only
        exact hasKey_dset_other f fld k _ h

theorem foldl_dateStep_no_key (flds : List String) (f : List (String × Value))
    (k : String) (h : hasKey f k = false) (hnm : ∀ fld ∈ flds, k ≠ fld) :
    hasKey (flds.foldl dateStep f) k = false := by
  induction flds generalizing f with
  | nil => exact h
  | cons fld rest ih =>
    rw [List.foldl_cons]
    refine ih (dateStep f fld) ?_ (fun g hg => hnm g (List.mem_cons_of_mem _ hg))
    rw [hasKey_dateStep_other f fld k (hnm fld (List.mem_cons_self _ _))]
    exact h

theorem aliasStage_cases (aT : String) (f1 f2 : List (String × Value))
    (h : aliasStage aT f1 = some f2) :
    f2 = f1 ∨ ∃ pas, f2 = dset f1 "processed_aliases" (.vlist pas) := by
  unfold aliasStage at h
  rcases hg : dget f1 "aliases" with _ | av
  · rw [hg] at h
    exact Or.inl (by simpa using h.symm)
  · rw [hg] at h
    dsimp only at h
    by_cases hf : pyFalsy av = true
    · rw [if_pos hf] at h
      exact Or.inl (by simpa using h.symm)
    · rw [if_neg hf] at h
      rcases hi : pyIter av with _ | items
      · rw [hi] at h
        cases h
      · rw [hi] at h
        dsimp only at h
        rcases hpa : processAliases aT items with _ | pas
        · rw [hpa] at h
          cases h
        · rw [hpa] at h
          refine Or.inr ⟨pas, ?_⟩
          simpa using h.symm

theorem addressStage_cases (u : PyStr) (f2 out : List (String × Value))
    (h : addressStage u f2 = some out) :
    out = f2 ∨ ∃ ad, out = dset f2 "address" (.vdict ad) := by
  unfold addressStage at h
  rcases hg : dget f2 "address" with _ | av
  · rw [hg] at h
    exact Or.inl (by simpa using h.symm)
  · rw [hg] at h
    dsimp only at h
    by_cases hf : pyFalsy av = true
    · rw [if_pos hf] at h
      exact Or.inl (by simpa using h.symm)
    · rw [if_neg hf] at h
      cases av with
      | vdict ps =>
        dsimp only at h
        by_cases hemp : (filter_empty_values ps).isEmpty = true
        · rw [if_pos hemp] at h
          exact Or.inl (by simpa using h.symm)
        · rw [if_neg hemp] at h
          rcases hc : dget (dset (filter_empty_values ps) "addressId"
              (.vstr (generate_unique_id (listChar "addr") u))) "country"
            with _ | cv
          · rw [hc] at h
            exact Or.inr ⟨_, by simpa using h.symm⟩
          · rw [hc] at h
            dsimp only at h
            rcases he : extract_country_value cv with _ | vc
            · rw [he] at h
              cases h
            · rw [he] at h
              rcases vc with _ | name
              · exact Or.inr ⟨_, by simpa using h.symm⟩
              · exact Or.inr ⟨_, by simpa using h.symm⟩
      | vnull => exact absurd (by decide : pyFalsy Value.vnull = true) hf
      | vbool b =>
        dsimp only at h
        cases h
      | vnum n =>
        dsimp only at h
        cases h
      | vstr s =>
        dsimp only at h
        cases h
      | vlist xs =>
        dsimp only at h
        cases h

theorem hasKey_process_record (dfs : List String) (aT : String) (u : PyStr)
    (data out : List (String × Value)) (k : String)
    (h : process_record dfs aT u data = some out)
    (hk1 : k ≠ "processed_aliases") (hk2 : k ≠ "address") :
    hasKey out k =
      hasKey (dfs.foldl dateStep (filter_empty_values data)) k := by
  unfold process_record at h
  rcases ha : aliasStage aT (dfs.foldl dateStep (filter_empty_values data))
    with _ | f2
  · rw [ha] at h
    cases h
  · rw [ha] at h
    have h2 : hasKey f2 k =
        hasKey (dfs.foldl dateStep (filter_empty_values data)) k := by
      rcases aliasStage_cases aT _ f2 ha with rfl | ⟨pas, rfl⟩
      · rfl
      · exact hasKey_dset_other _ _ _ _ hk1
    rcases addressStage_cases u f2 out h with rfl | ⟨ad, rfl⟩
    · exact h2
    · rw [hasKey_dset_other _ _ _ _ hk2]
      exact h2

theorem dateString_not_empty (d m y : Nat) :
    is_empty_value (.vstr
      (twoDigits d ++ '/' :: twoDigits m ++ '/' :: fourDigits y)) = false := by
  have hns : ∀ c ∈ (twoDigits d ++ '/' :: twoDigits m ++ '/' :: fourDigits y),
      pyIsSpace c = false := by
    intro c hc
    simp only [twoDigits, fourDigits, List.mem_append, List.mem_cons,
               List.not_mem_nil, or_false] at hc
    repeat' rcases hc with hc | hc
    all_goals try subst hc
    all_goals first
      | decide
      | exact isDigit_not_ws _ (digitChar_isDigit _ (by omega))
  show emptyPatterns.contains _ = false
  rw [pyStrip_no_ws _ hns]
  exact emptyPatterns_not_contains_len _ (by simp [twoDigits, fourDigits])

theorem collapse_ws_chars (t : PyStr) :
    (∀ c ∈ collapseWs t, c = ' ' ∨ pyIsSpace c = false) ∧
    (∀ c ∈ collapseWsSkip t, c = ' ' ∨ pyIsSpace c = false) := by
  induction t with
  | nil =>
    constructor <;> intro c hc
    · rw [show collapseWs [] = [] from rfl] at hc
      cases hc
    · rw [show collapseWsSkip [] = [] from rfl] at hc
      cases hc
  | cons a rest ih =>
    constructor
    · intro c hc
      rw [collapseWs] at hc
      by_cases ha : pyIsSpace a = true
      · rw [if_pos ha] at hc
        rcases List.mem_cons.mp hc with rfl | hc
        · exact Or.inl rfl
        · exact ih.2 c hc
      · rw [if_neg ha] at hc
        rcases List.mem_cons.mp hc with rfl | hc
        · exact Or.inr (by simpa using ha)
        · exact ih.1 c hc
    · intro c hc
      rw [collapseWsSkip] at hc
      by_cases ha : pyIsSpace a = true
      · rw [if_pos ha] at hc
        exact ih.2 c hc
      · rw [if_neg ha] at hc
        rcases List.mem_cons.mp hc with rfl | hc
        · exact Or.inr (by simpa using ha)
        · exact ih.1 c hc

theorem replace_fold_chars (l : List (Char × Char)) (P : Char → Prop) :
    ∀ s : PyStr, (∀ p ∈ l, P p.2) → (∀ c ∈ s, P c) →
    ∀ c ∈ l.foldl
        (fun acc p => acc.map (fun ch => if ch = p.1 then p.2 else ch)) s,
      P c := by
  induction l with
  | nil =>
    intro s _ hs c hc
    rw [List.foldl_nil] at hc
    exact hs c hc
  | cons q ltail ih =>
    intro s hT hs c hc
    rw [List.foldl_cons] at hc
    refine ih _ (fun p hp => hT p (List.mem_cons_of_mem _ hp)) ?_ c hc
    intro d hd
    rcases List.mem_map.mp hd with ⟨e, he, rfl⟩
    by_cases heq : e = q.1
    · rw [if_pos heq]
      exact hT q (List.mem_cons_self _ _)
    · rw [if_neg heq]
      exact hs e he


/-! ### Dictionary update lemmas -/

theorem takeWhile_all_append_stop (p : Char → Bool) (l1 : PyStr)
    (h1 : ∀ c ∈ l1, p c = true) (c : Char) (hc : p c = false) (l2 : PyStr) :
    (l1 ++ c :: l2).takeWhile p = l1 := by
  induction l1 with
  | nil =>
    rw [List.nil_append, List.takeWhile_cons, if_neg (by simp [hc])]
  | cons a tl ih =>
    rw [List.cons_append, List.takeWhile_cons,
        if_pos (by simp [h1 a (List.mem_cons_self _ _)]),
        ih (fun x hx => h1 x (List.mem_cons_of_mem _ hx))]

theorem lastNlIdx_ws_nl (ws : PyStr) :
    lastNlIdx (ws ++ ['\n']) = some ws.length := by
  unfold lastNlIdx
  rw [show (ws ++ ['\n']).reverse = '\n' :: ws.reverse from by simp]
  rw [List.findIdx?_cons]
  rw [if_pos (by simp)]
  rw [show (ws ++ ['\n']).length = ws.length + 1 from by simp]
  simp

theorem matchLabelAt_hit (ws : PyStr) (c : Char) (t : PyStr)
    (hws : ∀ x ∈ ws, pyIsSpace x = true) (hc : pyIsSpace c = false) :
    matchLabelAt (listChar "individuals")
        (listChar "INDIVIDUALS" ++ (ws ++ '\n' :: (c :: t))) =
      some (11 + ws.length + 1) := by
  unfold matchLabelAt
  rw [show (listChar "individuals").length = (listChar "INDIVIDUALS").length
    from rfl]
  rw [List.take_left]
  rw [if_pos (by decide)]
  dsimp only
  rw [List.drop_left]
  rw [show ws ++ '\n' :: (c :: t) = (ws ++ ['\n']) ++ (c :: t) from by simp]
  rw [takeWhile_all_append_stop pyIsSpace (ws ++ ['\n']) ?hall c hc t]
  case hall =>
    intro x hx
    rcases List.mem_append.mp hx with h1 | h2
    · exact hws x h1
    · have hx2 := List.mem_singleton.mp h2
      rw [hx2]
      decide
  rw [lastNlIdx_ws_nl ws]
  rfl

theorem searchLabel_hit (label s : PyStr) (pos n : Nat)
    (h : matchLabelAt label s = some n) :
    searchLabel label s pos = some (pos, pos + n) := by
  cases s with
  | nil => rw [searchLabel, h]
  | cons c rest => rw [searchLabel, h]

/-! ### Decimal digit strings of `Nat.toDigits` -/

theorem toDigitsCore_facts :
    ∀ (fuel n : Nat) (ds : PyStr),
      ∃ t, Nat.toDigitsCore 10 fuel n ds = t ++ ds ∧
        ∀ c ∈ t, c.isDigit = true := by
  intro fuel
  induction fuel with
  | zero =>
    intro n ds
    exact ⟨[], rfl, fun c hc => absurd hc (List.not_mem_nil c)⟩
  | succ fuel ih =>
    intro n ds
    rw [Nat.toDigitsCore]
    by_cases h0 : n / 10 = 0
    · rw [if_pos h0]
      refine ⟨[(n % 10).digitChar], rfl, ?_⟩
      intro c hc
      have hc2 := List.mem_singleton.mp hc
      rw [hc2]
      exact digitChar_isDigit _ (Nat.mod_lt _ (by omega))
    · rw [if_neg h0]
      obtain ⟨t, ht, hdig⟩ := ih (n / 10) ((n % 10).digitChar :: ds)
      refine ⟨t ++ [(n % 10).digitChar], ?_, ?_⟩
      · rw [ht, List.append_assoc, List.singleton_append]
      · intro c hc
        rcases List.mem_append.mp hc with hc1 | hc2
        · exact hdig c hc1
        · have hc3 := List.mem_singleton.mp hc2
          rw [hc3]
          exact digitChar_isDigit _ (Nat.mod_lt _ (by omega))

theorem toDigits_digits (n : Nat) :
    ∀ c ∈ Nat.toDigits 10 n, c.isDigit = true := by
  obtain ⟨t, ht, hdig⟩ := toDigitsCore_facts (n + 1) n []
  intro c hc
  show c.isDigit = true
  have hc2 : c ∈ t := by
    have : Nat.toDigits 10 n = t ++ [] := ht
    rw [List.append_nil] at this
    rw [← this]
    exact hc
  exact hdig c hc2

theorem toDigits_cons (n : Nat) :
    ∃ c t, Nat.toDigits 10 n = c :: t := by
  show ∃ c t, Nat.toDigitsCore 10 (n + 1) n [] = c :: t
  rw [Nat.toDigitsCore]
  by_cases h0 : n / 10 = 0
  · rw [if_pos h0]
    exact ⟨_, _, rfl⟩
  · rw [if_neg h0]
    obtain ⟨t, ht, _⟩ := toDigitsCore_facts n (n / 10) [(n % 10).digitChar]
    rw [ht]
    cases t with
    | nil => exact ⟨_, _, rfl⟩
    | cons a tt => exact ⟨_, _, rfl⟩

theorem mkAnchor_cons (num : Nat) :
    ∃ c t, mkAnchor num = c :: t := by
  obtain ⟨c, t0, hct⟩ := toDigits_cons num
  exact ⟨c, t0 ++ '.' :: ' ' :: listChar "Name 6:", by
    rw [mkAnchor, hct, List.cons_append]⟩

theorem matchGroupLen_anchor (ds r : PyStr) (hne : ds ≠ [])
    (hdig : ∀ c ∈ ds, c.isDigit = true) :
    matchGroupLen (ds ++ '.' :: ' ' :: (listChar "Name 6:" ++ r)) =
      some (ds.length + 9) := by
  have htw : (ds ++ '.' :: ' ' :: (listChar "Name 6:" ++ r)).takeWhile
      Char.isDigit = ds :=
    takeWhile_all_append_stop Char.isDigit ds hdig '.' (by decide) _
  unfold matchGroupLen
  rw [htw]
  rw [if_neg (by simp [List.length_eq_zero, hne])]
  rw [List.drop_left ds]
  show some (ds.length + 1 + 1 + 4 + 1 + 2) = some (ds.length + 9)
  simp only [Option.some.injEq]

theorem matchGroupLen_mkAnchor (num : Nat) (r : PyStr) :
    matchGroupLen (mkAnchor num ++ r) = some (mkAnchor num).length := by
  obtain ⟨c, t0, hct⟩ := toDigits_cons num
  have h1 : mkAnchor num ++ r =
      Nat.toDigits 10 num ++ '.' :: ' ' :: (listChar "Name 6:" ++ r) := by
    rw [mkAnchor]
    simp [List.append_assoc]
  rw [h1, matchGroupLen_anchor _ r (by rw [hct]; exact List.cons_ne_nil _ _)
    (toDigits_digits num)]
  have h2 : (mkAnchor num).length = (Nat.toDigits 10 num).length + 9 := by
    rw [mkAnchor, List.length_append]
    rw [show (('.' :: ' ' :: listChar "Name 6:") : PyStr).length = 9 from rfl]
  rw [h2]

theorem recsText_cons (n : Nat) (b : PyStr) (rest : List (Nat × PyStr)) :
    recsText ((n, b) :: rest) =
      mkAnchor n ++ (b ++ (match rest with
        | [] => ([] : PyStr)
        | _ :: _ => '\n' :: recsText rest)) := by
  cases rest with
  | nil => simp [recsText]
  | cons r2 t2 => simp [recsText, List.append_assoc]

theorem recsText_cons_head (n : Nat) (b : PyStr) (rest : List (Nat × PyStr)) :
    ∃ c t, recsText ((n, b) :: rest) = c :: t ∧ c.isDigit = true := by
  obtain ⟨c, t0, hct⟩ := toDigits_cons n
  refine ⟨c, t0 ++ ('.' :: ' ' :: listChar "Name 6:") ++ (b ++ (match rest with
    | [] => ([] : PyStr)
    | _ :: _ => '\n' :: recsText rest)), ?_, ?_⟩
  · rw [recsText_cons, mkAnchor, hct, List.cons_append, List.cons_append]
  · refine toDigits_digits n c ?_
    rw [hct]
    exact List.mem_cons_self _ _

theorem splitLoop_anchor (num : Nat) (X acc : PyStr) :
    splitLoop (mkAnchor num ++ X) true acc =
      acc.reverse :: mkAnchor num :: splitLoop X false [] := by
  obtain ⟨c, t, hct⟩ := mkAnchor_cons num
  have hm : matchGroupLen (mkAnchor num ++ X) = some (mkAnchor num).length :=
    matchGroupLen_mkAnchor num X
  rw [hct, List.cons_append] at hm ⊢
  rw [splitLoop_line_match c (t ++ X) acc _ hm]
  rw [← List.cons_append, ← hct, List.take_left, List.drop_left]

theorem splitLoop_nl_anchor (num : Nat) (X acc : PyStr) :
    splitLoop ('\n' :: (mkAnchor num ++ X)) false acc =
      acc.reverse :: mkAnchor num :: splitLoop X false [] := by
  rw [splitLoop_nl_match (mkAnchor num ++ X) acc false _
      (matchGroupLen_mkAnchor num X)]
  rw [List.take_left, List.drop_left]

theorem splitLoop_skip_body : ∀ (b : PyStr), (∀ c ∈ b, c ≠ '\n') →
    ∀ (t acc : PyStr),
    splitLoop (b ++ t) false acc = splitLoop t false (b.reverse ++ acc) := by
  intro b
  induction b with
  | nil =>
    intro _ t acc
    simp
  | cons c bb ih =>
    intro hb t acc
    have hc : c ≠ '\n' := hb c (List.mem_cons_self _ _)
    rw [List.cons_append]
    rw [splitLoop_step c (bb ++ t) acc false rfl (by rw [if_neg hc])]
    rw [show (decide (c = '\n')) = false from by simp [hc]]
    rw [ih (fun x hx => hb x (List.mem_cons_of_mem _ hx)) t (c :: acc)]
    simp [List.reverse_cons, List.append_assoc]

theorem splitLoop_tail : ∀ (recs : List (Nat × PyStr)),
    (∀ r ∈ recs, ∀ x ∈ r.2, x ≠ '\n') →
    ∀ b : PyStr, (∀ x ∈ b, x ≠ '\n') →
    splitLoop (b ++ (match recs with
      | [] => ([] : PyStr)
      | _ :: _ => '\n' :: recsText recs)) false [] =
      b :: recs.foldr (fun r l => mkAnchor r.1 :: r.2 :: l) [] := by
  intro recs
  induction recs with
  | nil =>
    intro _ b hbc
    have hskip := splitLoop_skip_body b hbc [] []
    rw [List.append_nil] at hskip
    show splitLoop (b ++ []) false [] = [b]
    rw [List.append_nil, hskip, splitLoop_nil]
    simp
  | cons r rest ih =>
    intro hclean b hbc
    obtain ⟨n1, b1⟩ := r
    show splitLoop (b ++ '\n' :: recsText ((n1, b1) :: rest)) false [] = _
    rw [splitLoop_skip_body b hbc ('\n' :: recsText ((n1, b1) :: rest)) []]
    rw [recsText_cons]
    rw [splitLoop_nl_anchor n1 _ (b.reverse ++ [])]
    rw [ih (fun q hq => hclean q (List.mem_cons_of_mem _ hq)) b1
        (hclean (n1, b1) (List.mem_cons_self _ _))]
    simp

theorem splitLoop_recsText (n0 : Nat) (b0 : PyStr) (rest : List (Nat × PyStr))
    (hclean : ∀ r ∈ ((n0, b0) :: rest), ∀ x ∈ r.2, x ≠ '\n') :
    splitLoop (recsText ((n0, b0) :: rest)) true [] =
      [] :: ((n0, b0) :: rest).foldr
        (fun r l => mkAnchor r.1 :: r.2 :: l) [] := by
  rw [recsText_cons, splitLoop_anchor n0 _ []]
  rw [splitLoop_tail rest (fun q hq => hclean q (List.mem_cons_of_mem _ hq)) b0
      (hclean (n0, b0) (List.mem_cons_self _ _))]
  simp

theorem foldr_interleave_length (recs : List (Nat × PyStr)) :
    (recs.foldr (fun r l => mkAnchor r.1 :: r.2 :: l) []).length =
      2 * recs.length := by
  induction recs with
  | nil => rfl
  | cons r rest ih =>
    simp only [List.foldr_cons, List.length_cons, ih]
    omega

theorem collectPairs_foldr (recs : List (Nat × PyStr)) :
    collectPairs (recs.foldr (fun r l => mkAnchor r.1 :: r.2 :: l) []) =
      recs.map (fun r => pyStrip (mkAnchor r.1 ++ r.2)) := by
  induction recs with
  | nil => rfl
  | cons r rest ih =>
    simp only [List.foldr_cons, List.map_cons]
    rw [collectPairs, ih]

theorem pyStrip_append_take (c : Char) (t1 : PyStr) (d : Char) (t2 : PyStr)
    (b : PyStr) (hc : pyIsSpace c = false) (hd : pyIsSpace d = false)
    (hrev : (c :: t1).reverse = d :: t2) :
    (pyStrip ((c :: t1) ++ b)).take (c :: t1).length = c :: t1 := by
  unfold pyStrip
  rw [List.cons_append, List.dropWhile_cons, if_neg (by simp [hc]),
      ← List.cons_append]
  rw [List.reverse_append, List.dropWhile_append]
  by_cases he : ((b.reverse.dropWhile pyIsSpace).isEmpty) = true
  · rw [if_pos he, hrev, List.dropWhile_cons, if_neg (by simp [hd]), ← hrev,
        List.reverse_reverse]
    exact List.take_length _
  · rw [if_neg he, List.reverse_append, List.reverse_reverse]
    exact List.take_left _ _

theorem mkAnchor_strip_take (num : Nat) (b : PyStr) :
    (pyStrip (mkAnchor num ++ b)).take (mkAnchor num).length = mkAnchor num := by
  obtain ⟨c, t0, hct⟩ := toDigits_cons num
  have hcd : c.isDigit = true :=
    toDigits_digits num c (by rw [hct]; exact List.mem_cons_self _ _)
  have hcons : mkAnchor num = c :: (t0 ++ '.' :: ' ' :: listChar "Name 6:") := by
    rw [mkAnchor, hct, List.cons_append]
  have hrev : (mkAnchor num).reverse =
      ':' :: (['6', ' ', 'e', 'm', 'a', 'N', ' ', '.'] ++
        (Nat.toDigits 10 num).reverse) := by
    rw [mkAnchor, List.reverse_append]
    rfl
  rw [hcons]
  refine pyStrip_append_take c (t0 ++ '.' :: ' ' :: listChar "Name 6:") ':'
    (['6', ' ', 'e', 'm', 'a', 'N', ' ', '.'] ++ (Nat.toDigits 10 num).reverse)
    b (isDigit_not_ws c hcd) (by decide) ?_
  rw [← hcons]
  exact hrev

/-! ## Claims -/

/-- C10: `is_empty_value` returns `false` on every value that is not
null, not a string, and not a sequence or mapping — in particular on
the number `0` and the boolean `false` — and `filter_empty_values`
preserves every key bound to such a value. -/
theorem C10_nonstring_scalars_kept :
    (∀ n : Int, is_empty_value (.vnum n) = false) ∧
    (∀ b : Bool, is_empty_value (.vbool b) = false) ∧
    (∀ (d : List (String × Value)) (k : String) (v : Value),
      (k, v) ∈ d → ((∃ n, v = .vnum n) ∨ (∃ b, v = .vbool b)) →
      (k, v) ∈ filter_empty_values d) := by
  refine ⟨fun n => rfl, fun b => rfl, ?_⟩
  intro d k v hmem hshape
  induction d with
  | nil => cases hmem
  | cons p rest ih =>
    rcases p with ⟨pk, pv⟩
    rw [filter_empty_values]
    rcases List.mem_cons.mp hmem with hmem | hmem
    · have hk : pk = k := (Prod.mk.injEq _ _ _ _ ▸ hmem.symm).1
      have hv : pv = v := (Prod.mk.injEq _ _ _ _ ▸ hmem.symm).2
      subst hk
      subst hv
      apply List.mem_append_left
      rcases hshape with ⟨n, rfl⟩ | ⟨b, rfl⟩
      · show (pk, Value.vnum n) ∈ [(pk, Value.vnum n)]
        simp
      · show (pk, Value.vbool b) ∈ [(pk, Value.vbool b)]
        simp
    · exact List.mem_append_right _ (ih hmem)

/-- C10 witness: concrete instance of the preservation clause. -/
theorem C10_witness :
    is_empty_value (.vnum 0) = false ∧
    is_empty_value (.vbool false) = false ∧
    ("a", Value.vnum 0) ∈ filter_empty_values [("a", Value.vnum 0)] :=
  ⟨C10_nonstring_scalars_kept.1 0, C10_nonstring_scalars_kept.2.1 false,
   C10_nonstring_scalars_kept.2.2 _ "a" _ (by simp) (Or.inl ⟨0, rfl⟩)⟩

/-- C5 counterexample: the string `"null"` is classified empty by
`is_empty_value`, yet it is not the null value and its cleaned form is
not among the five tokens the claim lists. -/
theorem C5_counterexample :
    is_empty_value (.vstr (listChar "null")) = true ∧
    Value.vstr (listChar "null") ≠ Value.vnull ∧
    claimedEmptyTokens.contains
      ((pyStrip (listChar "null")).map pyToLower) = false := by
  refine ⟨by decide, by simp, by decide⟩

/-- C5 (amended): a scalar is classified empty iff it is the null
value or a string whose trimmed, lowercased form is one of the six
tokens `""`, `"null"`, `"n/a"`, `"na"`, `"none"`, `"undefined"`. -/
theorem C5_empty_scalar_characterization (v : Value) (h : isScalar v = true) :
    is_empty_value v = true ↔
      (v = .vnull ∨ ∃ s, v = .vstr s ∧
        amendedEmptyTokens.contains ((pyStrip s).map pyToLower) = true) := by
  cases v with
  | vnull => simp [is_empty_value]
  | vbool b => simp [is_empty_value]
  | vnum n => simp [is_empty_value]
  | vstr s =>
    show emptyPatterns.contains ((pyStrip s).map pyToLower) = true ↔ _
    simp only [amendedEmptyTokens, emptyPatterns]
    constructor
    · intro hc
      exact Or.inr ⟨s, rfl, hc⟩
    · rintro (hc | ⟨s', hs, hc⟩)
      · cases hc
      · cases hs
        exact hc
  | vlist xs => simp [isScalar] at h
  | vdict ps => simp [isScalar] at h

/-- C5 witness: the characterization applied to the scalar `"NA "`. -/
theorem C5_witness :
    is_empty_value (.vstr (listChar "NA ")) = true :=
  (C5_empty_scalar_characterization (.vstr (listChar "NA ")) rfl).mpr
    (Or.inr ⟨listChar "NA ", rfl, by decide⟩)

/-- C9: a successful `append_to_json_file` on a ledger holding a JSON
array keeps every stored record at its original index, places the new
record last, and a sequence of successful appends starting from the
empty ledger yields exactly the appended records in order. -/
theorem C9_append_preserves_ledger :
    (∀ (xs : List Value) (r : Value),
      append_to_json_file (some (.vlist xs)) r = some (.vlist (xs ++ [r]))) ∧
    (∀ (xs : List Value) (r : Value) (i : Nat) (h : i < xs.length),
      (xs ++ [r]).get ⟨i, by rw [List.length_append]; omega⟩ = xs.get ⟨i, h⟩) ∧
    (∀ (xs : List Value) (r : Value), (xs ++ [r]).getLast? = some r) ∧
    (∀ rs : List Value, appendAll (some (.vlist [])) rs = some (.vlist rs)) := by
  refine ⟨fun xs r => rfl, ?_, ?_, ?_⟩
  · intro xs r i h
    rw [List.get_append _ h]
  · intro xs r
    exact List.getLast?_concat _
  · intro rs
    simpa using appendAll_vlist rs []

/-- C9 witness: concrete instance of the index-preservation clause. -/
theorem C9_witness :
    ([Value.vnull] ++ [Value.vnum 1]).get ⟨0, by decide⟩ =
      [Value.vnull].get ⟨0, by decide⟩ ∧
    appendAll (some (.vlist [])) [Value.vnull, Value.vnum 1] =
      some (.vlist [Value.vnull, Value.vnum 1]) :=
  ⟨C9_append_preserves_ledger.2.1 [Value.vnull] (Value.vnum 1) 0 (by decide),
   C9_append_preserves_ledger.2.2.2 [Value.vnull, Value.vnum 1]⟩

/-- C7 counterexample: a manager that was already initialized (here by
a resume-mode initialization over a one-record individuals ledger)
skips a subsequent reset-mode initialization entirely: the ledger keeps
its record and the counts read `(1, 0)`, not `(0, 0)`. -/
theorem C7_counterexample :
    (initialize_output_files
      (initialize_output_files
        ⟨⟨some (.vlist [.vnull]), none⟩, false, false⟩ true)
      false).fs.ind = some (.vlist [.vnull]) ∧
    get_existing_record_counts
      (initialize_output_files
        (initialize_output_files
          ⟨⟨some (.vlist [.vnull]), none⟩, false, false⟩ true)
        false) = (1, 0) :=
  ⟨rfl, rfl⟩

/-- C7 (amended): on a manager not yet initialized, reset-mode
initialization empties both ledgers and the counts read zero (if the
manager was already initialized, reset mode is skipped by the guard);
resume-mode initialization, in any manager state, creates an empty
ledger only where none exists, leaves an existing ledger untouched,
and reports its current size. -/
theorem C7_initialize_modes (s : FMState) (h : s.filesInitialized = false) :
    ((initialize_output_files s false).fs.ind = some (.vlist []) ∧
     (initialize_output_files s false).fs.ent = some (.vlist []) ∧
     get_existing_record_counts (initialize_output_files s false) = (0, 0)) ∧
    (∀ t : FMState,
      (t.fs.ind = none →
        (initialize_output_files t true).fs.ind = some (.vlist [])) ∧
      (∀ v, t.fs.ind = some v →
        (initialize_output_files t true).fs.ind = some v) ∧
      (t.fs.ent = none →
        (initialize_output_files t true).fs.ent = some (.vlist [])) ∧
      (∀ v, t.fs.ent = some v →
        (initialize_output_files t true).fs.ent = some v) ∧
      (∀ xs, t.fs.ind = some (.vlist xs) →
        (get_existing_record_counts (initialize_output_files t true)).1 =
          xs.length) ∧
      (∀ xs, t.fs.ent = some (.vlist xs) →
        (get_existing_record_counts (initialize_output_files t true)).2 =
          xs.length)) := by
  constructor
  · rw [initialize_output_files, if_neg (by simp [h])]
    exact ⟨rfl, rfl, rfl⟩
  · intro t
    refine ⟨?_, ?_, ?_, ?_, ?_, ?_⟩
    · intro hind
      rw [initialize_output_files, if_neg (by simp), hind]
      simp
    · intro v hind
      rw [initialize_output_files, if_neg (by simp), hind]
      simp
    · intro hent
      rw [initialize_output_files, if_neg (by simp), hent]
      simp
    · intro v hent
      rw [initialize_output_files, if_neg (by simp), hent]
      simp
    · intro xs hind
      rw [initialize_output_files, if_neg (by simp), hind]
      simp [get_existing_record_counts, countOf]
    · intro xs hent
      rw [initialize_output_files, if_neg (by simp), hent]
      simp [get_existing_record_counts, countOf]

/-- C7 witness: the amended behaviour on a concrete state. -/
theorem C7_witness :
    (initialize_output_files
      ⟨⟨some (.vlist [.vnull]), none⟩, false, false⟩ false).fs.ind =
      some (.vlist []) ∧
    (initialize_output_files
      ⟨⟨some (.vlist [.vnull]), none⟩, false, false⟩ true).fs.ind =
      some (.vlist [.vnull]) :=
  ⟨(C7_initialize_modes ⟨⟨some (.vlist [.vnull]), none⟩, false, false⟩ rfl).1.1,
   ((C7_initialize_modes ⟨⟨some (.vlist [.vnull]), none⟩, false, false⟩
      rfl).2 ⟨⟨some (.vlist [.vnull]), none⟩, false, false⟩).2.1 _ rfl⟩

/-- C2: a date string exactly of the form `DD/MM/YYYY` with day in
1..31 and month in 1..12 normalizes to `YYYY-MM-DD` with the same
numeric components; with day or month out of range the string
normalizes to `None` and the record normalization (individual and
entity alike) removes the date field from its output entirely. -/
theorem C2_date_normalization :
    (∀ d m y : Nat, 1 ≤ d → d ≤ 31 → 1 ≤ m → m ≤ 12 →
      normalize_date (twoDigits d ++ '/' :: twoDigits m ++ '/' :: fourDigits y) =
        some (fourDigits y ++ '-' :: twoDigits m ++ '-' :: twoDigits d)) ∧
    (∀ d m y : Nat, d ≤ 99 → m ≤ 99 → (d = 0 ∨ 31 < d ∨ m = 0 ∨ 12 < m) →
      normalize_date (twoDigits d ++ '/' :: twoDigits m ++ '/' :: fourDigits y) =
        none) ∧
    (∀ (d m y : Nat) (u : PyStr) (data out : List (String × Value)),
      d ≤ 99 → m ≤ 99 → (d = 0 ∨ 31 < d ∨ m = 0 ∨ 12 < m) →
      dget data "dateOfBirth" = some (.vstr
        (twoDigits d ++ '/' :: twoDigits m ++ '/' :: fourDigits y)) →
      process_individual u data = some out →
      hasKey out "dateOfBirth" = false) ∧
    (∀ (d m y : Nat) (u : PyStr) (data out : List (String × Value)),
      d ≤ 99 → m ≤ 99 → (d = 0 ∨ 31 < d ∨ m = 0 ∨ 12 < m) →
      dget data "listedOn" = some (.vstr
        (twoDigits d ++ '/' :: twoDigits m ++ '/' :: fourDigits y)) →
      process_entity u data = some out →
      hasKey out "listedOn" = false) := by
  have heval : ∀ d m y : Nat,
      normalize_date (twoDigits d ++ '/' :: twoDigits m ++ '/' :: fourDigits y) =
        if (1 ≤ natOfDigits (twoDigits d) && natOfDigits (twoDigits d) ≤ 31 &&
            1 ≤ natOfDigits (twoDigits m) && natOfDigits (twoDigits m) ≤ 12) =
            true then
          some (fourDigits y ++ '-' :: twoDigits m ++ '-' :: twoDigits d)
        else none := by
    intro d m y
    exact normalize_date_digits _ _ _ _ _ _ _ _
      (digitChar_isDigit _ (by omega)) (digitChar_isDigit _ (by omega))
      (digitChar_isDigit _ (by omega)) (digitChar_isDigit _ (by omega))
      (digitChar_isDigit _ (by omega)) (digitChar_isDigit _ (by omega))
      (digitChar_isDigit _ (by omega)) (digitChar_isDigit _ (by omega))
  have hnone : ∀ d m y : Nat, d ≤ 99 → m ≤ 99 →
      (d = 0 ∨ 31 < d ∨ m = 0 ∨ 12 < m) →
      normalize_date (twoDigits d ++ '/' :: twoDigits m ++ '/' :: fourDigits y) =
        none := by
    intro d m y h1 h2 h3
    rw [heval d m y, natOfDigits_twoDigits d h1, natOfDigits_twoDigits m h2]
    rw [if_neg ?_]
    simp only [Bool.and_eq_true, decide_eq_true_eq]
    intro hcb
    rcases h3 with h3 | h3 | h3 | h3 <;> omega
  have hremoval : ∀ (dfs : List String) (fld aT : String)
      (d m y : Nat) (u : PyStr) (data out : List (String × Value)),
      dfs.head? = some fld →
      (∀ g ∈ dfs.tail, fld ≠ g) →
      d ≤ 99 → m ≤ 99 → (d = 0 ∨ 31 < d ∨ m = 0 ∨ 12 < m) →
      fld ≠ "processed_aliases" → fld ≠ "address" →
      dget data fld = some (.vstr
        (twoDigits d ++ '/' :: twoDigits m ++ '/' :: fourDigits y)) →
      process_record dfs aT u data = some out →
      hasKey out fld = false := by
    intro dfs fld aT d m y u data out hhead htail h1 h2 h3 hne1 hne2 hget hout
    have hget0 : dget (filter_empty_values data) fld = some (.vstr
        (twoDigits d ++ '/' :: twoDigits m ++ '/' :: fourDigits y)) :=
      dget_filter_scalar _ _ _ hget (dateString_not_empty d m y) rfl
    have hk0 : hasKey (filter_empty_values data) fld = true := by
      rw [hasKey_iff_ne_none]
      simp [hget0]
    have hstep : dateStep (filter_empty_values data) fld =
        dpop (filter_empty_values data) fld := by
      unfold dateStep
      rw [if_pos (by simp [hk0]), hget0]
      dsimp only
      rw [show normalize_date_value (.vstr
          (twoDigits d ++ '/' :: twoDigits m ++ '/' :: fourDigits y)) = none
        from hnone d m y h1 h2 h3]
    rcases dfs with _ | ⟨fld0, dtail⟩
    · cases hhead
    · have hfld0 : fld0 = fld := by simpa using hhead
      subst hfld0
      have hk1 : hasKey
          ((fld0 :: dtail).foldl dateStep (filter_empty_values data)) fld0 =
          false := by
        rw [List.foldl_cons, hstep]
        exact foldl_dateStep_no_key _ _ _ (hasKey_dpop_self _ _)
          (by simpa using htail)
      rw [hasKey_process_record (fld0 :: dtail) aT u data out fld0 hout hne1 hne2]
      exact hk1
  refine ⟨?_, hnone, ?_, ?_⟩
  · intro d m y h1 h2 h3 h4
    rw [heval d m y, natOfDigits_twoDigits d (by omega),
        natOfDigits_twoDigits m (by omega)]
    rw [if_pos ?_]
    simp only [Bool.and_eq_true, decide_eq_true_eq]
    omega
  · intro d m y u data out h1 h2 h3 hget hout
    exact hremoval ["dateOfBirth", "listedOn", "dateDesignated", "lastUpdated",
        "dateTrustServicesSanctionsImposed"] "dateOfBirth" "UNKNOWN"
      d m y u data out rfl (by decide) h1 h2 h3 (by decide) (by decide) hget hout
  · intro d m y u data out h1 h2 h3 hget hout
    exact hremoval ["listedOn", "dateDesignated", "lastUpdated"] "listedOn"
        "TRADENAME" d m y u data out rfl (by decide) h1 h2 h3 (by decide)
      (by decide) hget hout

/-- C2 witness: the in-range date `09/10/1984` and the out-of-range
date `41/02/1961` on a concrete record. -/
theorem C2_witness :
    normalize_date (twoDigits 9 ++ '/' :: twoDigits 10 ++ '/' :: fourDigits 1984) =
      some (fourDigits 1984 ++ '-' :: twoDigits 10 ++ '-' :: twoDigits 9) ∧
    hasKey ([] : List (String × Value)) "dateOfBirth" = false :=
  ⟨C2_date_normalization.1 9 10 1984 (by decide) (by decide) (by decide)
     (by decide),
   C2_date_normalization.2.2.1 41 2 1961 []
     [("dateOfBirth", .vstr
        (twoDigits 41 ++ '/' :: twoDigits 2 ++ '/' :: fourDigits 1961))] []
     (by decide) (by decide) (by simp) rfl rfl⟩

theorem valid_countries_no_comma :
    ∀ e ∈ get_valid_countries, e.1.data.contains ',' = false := by decide

theorem countryLookup_comma_none (key : PyStr)
    (h : key.contains ',' = true) : countryLookup key = none := by
  have hf : get_valid_countries.find? (fun e => e.1.data == key) = none := by
    rw [List.find?_eq_none]
    intro e he hbeq
    have hek : e.1.data = key := by simpa using hbeq
    have hnc := valid_countries_no_comma e he
    rw [hek, h] at hnc
    cases hnc
  simp [countryLookup, hf]

theorem extract_country_value_unresolved (s : PyStr)
    (h : extract_country_from_location s = none) :
    extract_country_value (.vstr s) = some none := by
  unfold extract_country_value
  by_cases hb : (pyFalsy (Value.vstr s) || is_empty_value (Value.vstr s)) = true
  · rw [if_pos hb]
  · rw [if_neg hb]
    dsimp only
    rw [h]

/-- C4: for a nonempty, non-empty-classified location string whose
trimmed-and-lowercased form is comma-separated,
`extract_country_from_location` returns exactly the last-to-first scan
of the trimmed components through the country registry (first hit's
canonical name, `None` when no component matches); without a comma it
is a single registry lookup of the whole cleaned string; and when the
address country field fails to resolve, the record normalization
removes the country key from the output address instead of keeping the
unvalidated string. -/
theorem C4_country_resolution :
    (∀ s : PyStr, s.isEmpty = false → is_empty_value (.vstr s) = false →
      ((pyStrip s).map pyToLower).contains ',' = true →
      extract_country_from_location s =
        scanCountryComponents ((pyStrip s).map pyToLower)) ∧
    (∀ s : PyStr, s.isEmpty = false → is_empty_value (.vstr s) = false →
      ((pyStrip s).map pyToLower).contains ',' = false →
      extract_country_from_location s =
        countryLookup ((pyStrip s).map pyToLower)) ∧
    (∀ (u : PyStr) (f2 ps : List (String × Value)) (s : PyStr)
       (out : List (String × Value)),
      dget f2 "address" = some (.vdict ps) →
      dget (dset (filter_empty_values ps) "addressId"
        (.vstr (generate_unique_id (listChar "addr") u))) "country" =
        some (.vstr s) →
      extract_country_from_location s = none →
      addressStage u f2 = some out →
      ∃ ad2, dget out "address" = some (.vdict ad2) ∧
        hasKey ad2 "country" = false) := by
  refine ⟨?_, ?_, ?_⟩
  · intro s h0 h1 hc
    have hcond : (s.isEmpty || is_empty_value (Value.vstr s)) = false := by
      rw [h0, h1]
      rfl
    unfold extract_country_from_location
    rw [if_neg (by simp [hcond])]
    dsimp only
    rw [hc, if_pos rfl]
    rcases hfs : ((splitOnChar ((pyStrip s).map pyToLower) ',').map
        pyStrip).reverse.findSome? countryLookup with _ | n
    · dsimp only
      unfold scanCountryComponents
      rw [hfs]
      exact countryLookup_comma_none _ hc
    · dsimp only
      unfold scanCountryComponents
      rw [hfs]
  · intro s h0 h1 hc
    have hcond : (s.isEmpty || is_empty_value (Value.vstr s)) = false := by
      rw [h0, h1]
      rfl
    unfold extract_country_from_location
    rw [if_neg (by simp [hcond])]
    dsimp only
    rw [hc, if_neg (by decide)]
  · intro u f2 ps s out haddr hcty hnone hstage
    have hval : extract_country_value (Value.vstr s) = some none :=
      extract_country_value_unresolved s hnone
    unfold addressStage at hstage
    rw [haddr] at hstage
    dsimp only at hstage
    by_cases hf : pyFalsy (Value.vdict ps) = true
    · have hps : ps = [] := by
        cases ps with
        | nil => rfl
        | cons p rest => exact absurd hf (by simp [pyFalsy])
      subst hps
      rw [show filter_empty_values ([] : List (String × Value)) = []
        from rfl] at hcty
      rw [show dset ([] : List (String × Value)) "addressId"
          (Value.vstr (generate_unique_id (listChar "addr") u)) =
          [("addressId", Value.vstr (generate_unique_id (listChar "addr") u))]
        from rfl] at hcty
      rw [dget_cons_neg ("addressId",
        Value.vstr (generate_unique_id (listChar "addr") u)) [] "country"
        rfl] at hcty
      rw [show dget ([] : List (String × Value)) "country" = none
        from rfl] at hcty
      cases hcty
    · rw [if_neg hf] at hstage
      by_cases hemp : (filter_empty_values ps).isEmpty = true
      · have h0 : filter_empty_values ps = [] := by
          rcases hh : filter_empty_values ps with _ | ⟨q, qs⟩
          · rfl
          · rw [hh] at hemp
            cases hemp
        rw [h0] at hcty
        rw [show dset ([] : List (String × Value)) "addressId"
            (Value.vstr (generate_unique_id (listChar "addr") u)) =
            [("addressId", Value.vstr (generate_unique_id (listChar "addr") u))]
          from rfl] at hcty
        rw [dget_cons_neg ("addressId",
        Value.vstr (generate_unique_id (listChar "addr") u)) [] "country"
        rfl] at hcty
        rw [show dget ([] : List (String × Value)) "country" = none
          from rfl] at hcty
        cases hcty
      · rw [if_neg hemp] at hstage
        rw [hcty] at hstage
        dsimp only at hstage
        rw [hval] at hstage
        dsimp only [Option.map] at hstage
        have hout : out = dset f2 "address" (.vdict (dpop
            (dset (filter_empty_values ps) "addressId"
              (.vstr (generate_unique_id (listChar "addr") u)))
            "country")) := by
          simpa using hstage.symm
        refine ⟨dpop (dset (filter_empty_values ps) "addressId"
            (.vstr (generate_unique_id (listChar "addr") u))) "country",
          ?_, ?_⟩
        · rw [hout]
          exact dget_dset_self _ _ _
        · exact hasKey_dpop_self _ _

/-- C4 witness: the comma-separated location `"Moscow, Russian
Federation"` resolves through the component scan, and the unmatched
country `"Atlantis"` is removed from a concrete normalized address. -/
theorem C4_witness :
    extract_country_from_location (listChar "Moscow, Russian Federation") =
      scanCountryComponents
        ((pyStrip (listChar "Moscow, Russian Federation")).map pyToLower) ∧
    (∃ ad2,
      dget [("address", Value.vdict
          [("addressId", Value.vstr (listChar "addr_u"))])] "address" =
        some (.vdict ad2) ∧
      hasKey ad2 "country" = false) :=
  ⟨C4_country_resolution.1 (listChar "Moscow, Russian Federation")
     (by decide) (by decide) (by decide),
   C4_country_resolution.2.2 (listChar "u")
     [("address", Value.vdict [("country", Value.vstr (listChar "Atlantis"))])]
     [("country", Value.vstr (listChar "Atlantis"))]
     (listChar "Atlantis")
     [("address", Value.vdict [("addressId", Value.vstr (listChar "addr_u"))])]
     rfl rfl rfl rfl⟩

/-- C3 counterexample: on the alias `"é . è"` the code yields two
adjacent spaces and deletes both accented letters — the accent table is
applied only after `[^a-z0-9\s]` stripping has already removed the
accented characters, and the whitespace collapse happens before the
stripping, so removed punctuation leaves doubled spaces behind. -/
theorem C3_counterexample :
    normalize_alias (listChar "é . è") = [' ', ' '] ∧
    hasDoubledSpace (normalize_alias (listChar "é . è")) = true ∧
    ¬ ('e' ∈ normalize_alias (listChar "é . è")) :=
  ⟨by decide, by decide, by decide⟩

/-- C3 (amended): every character of a normalized alias id is a
lowercase letter, a digit, or a space (so the result is lowercase and
inside `[a-z0-9 ]`); accented letters are deleted rather than
transliterated, and doubled spaces may remain. -/
theorem C3_alias_charset (s : PyStr) (c : Char)
    (hc : c ∈ normalize_alias s) :
    ('a' ≤ c ∧ c ≤ 'z') ∨ ('0' ≤ c ∧ c ≤ '9') ∨ c = ' ' := by
  unfold normalize_alias at hc
  by_cases hse : s.isEmpty = true
  · rw [if_pos hse] at hc
    cases hc
  · rw [if_neg hse] at hc
    refine replace_fold_chars accentMap
      (fun c => ('a' ≤ c ∧ c ≤ 'z') ∨ ('0' ≤ c ∧ c ≤ '9') ∨ c = ' ') _
      (by decide) ?_ c hc
    intro d hd
    have hmf := List.mem_filter.mp hd
    have hk := hmf.2
    have hcw := (collapse_ws_chars (pyStrip (s.map pyToLower))).1 d hmf.1
    unfold aliasKeep at hk
    rcases h1 : ('a' ≤ d && d ≤ 'z') with _ | _
    · rcases h2 : ('0' ≤ d && d ≤ '9') with _ | _
      · rw [h1, h2] at hk
        simp only [Bool.false_or] at hk
        rcases hcw with hsp | hns
        · exact Or.inr (Or.inr hsp)
        · rw [hns] at hk
          cases hk
      · exact Or.inr (Or.inl (by simpa using h2))
    · exact Or.inl (by simpa using h1)

/-- C3 witness: the charset property at a concrete alias character. -/
theorem C3_witness :
    ('a' ∈ normalize_alias (listChar "ab")) ∧
    (('a' ≤ 'a' ∧ 'a' ≤ 'z') ∨ ('0' ≤ 'a' ∧ 'a' ≤ '9') ∨ 'a' = ' ') :=
  ⟨by decide, C3_alias_charset (listChar "ab") 'a' (by decide)⟩

/-- C6 counterexample: a mapping element inside a sequence is not
recursively filtered, so the empty-classified scalar `null` nested in
it survives filtering at depth three. -/
theorem C6_counterexample :
    filter_empty_values [("k", Value.vlist [Value.vdict [("a", Value.vnull)]])] =
      [("k", Value.vlist [Value.vdict [("a", Value.vnull)]])] ∧
    hasEmptyInDict
      (filter_empty_values
        [("k", Value.vlist [Value.vdict [("a", Value.vnull)]])]) = true :=
  ⟨rfl, rfl⟩

/-- C6 (amended): filtering runs entry by entry; a nested-mapping
entry is kept exactly when its bottom-up filtered child is nonempty,
and then its value is exactly that filtered child; a sequence entry is
kept exactly when the one-level element filter leaves something, and
then its value is exactly that filtered list, in which an element
survives if and only if it is not empty-classified; every surviving
top-level value is non-empty-classified.  (Mapping elements inside
sequences are not themselves filtered; see the counterexample.) -/
theorem C6_filter_structure :
    (∀ (k : String) (v : Value) (d : List (String × Value)),
      filter_empty_values ((k, v) :: d) =
        filterEntry k v ++ filter_empty_values d) ∧
    (∀ (k : String) (ps : List (String × Value)),
      filterEntry k (.vdict ps) =
        if (filter_empty_values ps).isEmpty = true then []
        else [(k, .vdict (filter_empty_values ps))]) ∧
    (∀ (k : String) (xs : List Value),
      filterEntry k (.vlist xs) =
        if (xs.filter (fun it => !is_empty_value it)).isEmpty = true then []
        else [(k, .vlist (xs.filter (fun it => !is_empty_value it)))]) ∧
    (∀ (xs : List Value) (a : Value),
      a ∈ xs.filter (fun it => !is_empty_value it) ↔
        a ∈ xs ∧ is_empty_value a = false) ∧
    (∀ (d : List (String × Value)) (p : String × Value),
      p ∈ filter_empty_values d → is_empty_value p.2 = false) := by
  refine ⟨?_, ?_, ?_, ?_, ?_⟩
  · intro k v d
    rw [filter_empty_values]
  · intro k ps
    cases ps with
    | nil => rfl
    | cons p rest =>
      unfold filterEntry
      rw [if_neg (by simp [is_empty_value])]
  · intro k xs
    cases xs with
    | nil => rfl
    | cons x rest =>
      unfold filterEntry
      rw [if_neg (by simp [is_empty_value])]
  · intro xs a
    simp [List.mem_filter]
  · intro d p hp
    induction d with
    | nil => cases hp
    | cons q rest ih =>
      rcases q with ⟨qk, qv⟩
      rw [filter_empty_values] at hp
      rcases List.mem_append.mp hp with hp1 | hp2
      · exact (filterEntry_cases qk qv p hp1).2.1
      · exact ih hp2

/-- C6 witness: a concrete nested mapping is kept with exactly its
filtered child, and a concrete surviving value is non-empty. -/
theorem C6_witness :
    filterEntry "k" (.vdict [("a", Value.vstr (listChar "x"))]) =
      [("k", .vdict (filter_empty_values
        [("a", Value.vstr (listChar "x"))]))] ∧
    is_empty_value (Value.vdict [("a", Value.vstr (listChar "x"))]) = false :=
  ⟨by
    rw [C6_filter_structure.2.1 "k" [("a", Value.vstr (listChar "x"))]]
    rw [if_neg (by decide)],
   C6_filter_structure.2.2.2.2
     [("k", Value.vdict [("a", Value.vstr (listChar "x"))])]
     ("k", Value.vdict [("a", Value.vstr (listChar "x"))])
     (List.mem_singleton.mpr rfl)⟩

/-- C1 (amended): for a document made of the INDIVIDUALS label,
whitespace-only padding ending in the newline consumed by the label
regex, and N ≥ 1 records, each an anchor line `<num>. Name 6:`
followed by a newline-free body, with no ENTITIES match in the record
region, `split_individuals_text` returns exactly N chunks, in document
order, each the stripped anchor-plus-body, and each starting with its
own anchor text.  (When non-whitespace text stands before the first
anchor the pairing is off by one instead; see the counterexample.) -/
theorem C1_segmentation :
    ∀ (ws : PyStr) (recs : List (Nat × PyStr)),
      (∀ x ∈ ws, pyIsSpace x = true) →
      recs ≠ [] →
      (∀ r ∈ recs, ∀ x ∈ r.2, x ≠ '\n') →
      searchLabel (listChar "entities") (recsText recs) 0 = none →
      split_individuals_text
          (listChar "INDIVIDUALS" ++ (ws ++ '\n' :: recsText recs)) =
        recs.map (fun r => pyStrip (mkAnchor r.1 ++ r.2)) ∧
      (split_individuals_text
          (listChar "INDIVIDUALS" ++ (ws ++ '\n' :: recsText recs))).length =
        recs.length ∧
      (∀ r ∈ recs,
        (pyStrip (mkAnchor r.1 ++ r.2)).take (mkAnchor r.1).length =
          mkAnchor r.1) := by
  intro ws recs hws hne hclean hent
  have hmain : split_individuals_text
      (listChar "INDIVIDUALS" ++ (ws ++ '\n' :: recsText recs)) =
      recs.map (fun r => pyStrip (mkAnchor r.1 ++ r.2)) := by
    rcases recs with _ | ⟨⟨n0, b0⟩, rest⟩
    · exact absurd rfl hne
    obtain ⟨c, t, hct, hcd⟩ := recsText_cons_head n0 b0 rest
    have hmla : matchLabelAt (listChar "individuals")
        (listChar "INDIVIDUALS" ++
          (ws ++ '\n' :: recsText ((n0, b0) :: rest))) =
        some (11 + ws.length + 1) := by
      rw [hct]
      exact matchLabelAt_hit ws c t hws (isDigit_not_ws c hcd)
    have hsearch := searchLabel_hit _ _ 0 _ hmla
    unfold split_individuals_text
    rw [hsearch]
    dsimp only
    have hdrop : (listChar "INDIVIDUALS" ++
        (ws ++ '\n' :: recsText ((n0, b0) :: rest))).drop
        (0 + (11 + ws.length + 1)) = recsText ((n0, b0) :: rest) := by
      rw [Nat.zero_add]
      rw [show listChar "INDIVIDUALS" ++
          (ws ++ '\n' :: recsText ((n0, b0) :: rest)) =
          (listChar "INDIVIDUALS" ++ ws ++ ['\n']) ++
            recsText ((n0, b0) :: rest) from by simp]
      have hlen : (11 : Nat) + ws.length + 1 =
          (listChar "INDIVIDUALS" ++ ws ++ ['\n']).length := by
        rw [List.length_append, List.length_append,
            show (listChar "INDIVIDUALS").length = 11 from rfl,
            show ((['\n'] : PyStr)).length = 1 from rfl]
      rw [hlen]
      exact List.drop_left _ _
    rw [hdrop, hent]
    dsimp only
    rw [splitLoop_recsText n0 b0 rest hclean]
    rw [if_neg (by
      simp only [List.length_cons, foldr_interleave_length]
      omega)]
    dsimp only
    rw [if_pos (show (pyStrip ([] : PyStr)).isEmpty = true from rfl)]
    rw [show ((([] : PyStr) :: ((n0, b0) :: rest).foldr
        (fun r l => mkAnchor r.1 :: r.2 :: l) []).drop 1) =
        ((n0, b0) :: rest).foldr (fun r l => mkAnchor r.1 :: r.2 :: l) []
      from rfl]
    exact collectPairs_foldr ((n0, b0) :: rest)
  refine ⟨hmain, ?_, ?_⟩
  · rw [hmain, List.length_map]
  · intro r _
    exact mkAnchor_strip_take r.1 r.2

/-- C1 witness: a two-record INDIVIDUALS document with whitespace-only
padding before the first anchor, split into its two stripped chunks. -/
theorem C1_witness :
    split_individuals_text
        (listChar "INDIVIDUALS" ++ ([' '] ++ '\n' ::
          recsText [(1, listChar " A"), (2, listChar " B")])) =
      [(1, listChar " A"), (2, listChar " B")].map
        (fun r => pyStrip (mkAnchor r.1 ++ r.2)) :=
  (C1_segmentation [' '] [(1, listChar " A"), (2, listChar " B")]
    (by decide) (by decide) (by decide) (by decide)).1

/-- C1 counterexample: with the non-whitespace text `"Preamble"`
between the section label and the first anchor line, the code pairs
split pieces off by one: it returns two chunks for two anchors, but
the first chunk is `"Preamble1. Name 6:"` — it does not start with its
anchor (and the last record body is lost). -/
theorem C1_counterexample :
    split_individuals_text
        (listChar "INDIVIDUALS\nPreamble\n1. Name 6: A\n2. Name 6: B") =
      [listChar "Preamble1. Name 6:", listChar "A2. Name 6:"] ∧
    (listChar "Preamble1. Name 6:").take 10 ≠ listChar "1. Name 6:" :=
  ⟨rfl, by decide⟩

end Sanctions
